import Mathlib

/-! # evemu-event: the command-stream interpreter of `tools/evemu-event.c`

A shallow embedding of `parse_arg`, `parse_type`, `parse_code`, `ev_from_args`,
`read_fifo` and `main`.

C strings are `List Char` (a C string holds no NUL character; a buffer may).
`long` is the 64-bit `long` of Linux LP64 and `int` is 32 bits wide; both are
modelled as `Int`, with the saturation `strtol` performs and the range test of
the source written out.  A floating value that does not fit the integer type it
is converted to gives what the conversion instruction of x86-64 gives, the least
value of the type.  The C library functions the program calls (`strlen`,
`strtol`, `atof`, GNU `basename`, `argz_create_sep`, `argz_count`,
`argz_extract`, `getopt_long`) are modelled after their ISO C / glibc
definitions; the two libevdev name lookups, `open` and the two libevemu
functions are parameters.  What the program does to the outside
(calling the emitter, sleeping, printing an error, opening the source) is
recorded in the result of the function that does it.
-/

namespace Evemu

/-! ## C library -/

def LONG_MAX : Int := 9223372036854775807
def LONG_MIN : Int := -9223372036854775808
def INT_MAX : Int := 2147483647
def INT_MIN : Int := -2147483648

/-- The C-locale `isspace`: space, `\t`, `\n`, `\v`, `\f`, `\r`. -/
def isspace (c : Char) : Bool :=
  c == ' ' || c == '\t' || c == '\n' || c == '\x0b' || c == '\x0c' || c == '\r'

/-- Value of a character as a digit, as `strtol` reads it: `0-9`, then letters
of either case for 10..35. -/
def digit_value (c : Char) : Option Nat :=
  if 48 ≤ c.toNat ∧ c.toNat ≤ 57 then some (c.toNat - 48)
  else if 97 ≤ c.toNat ∧ c.toNat ≤ 122 then some (c.toNat - 97 + 10)
  else if 65 ≤ c.toNat ∧ c.toNat ≤ 90 then some (c.toNat - 65 + 10)
  else none

/-- Whether `c` is a digit of the given base. -/
def valid_digit (base : Nat) (c : Char) : Bool :=
  match digit_value c with
  | some d => decide (d < base)
  | none => false

/-- The digit loop of `strtol`: consumes the longest run of digits of `base`,
accumulating the (unbounded) magnitude; returns it with the unread rest. -/
def scan_digits (base : Nat) : List Char → Nat → Nat × List Char
  | [], acc => (acc, [])
  | c :: cs, acc =>
    match digit_value c with
    | some d => if d < base then scan_digits base cs (acc * base + d) else (acc, c :: cs)
    | none => (acc, c :: cs)

/-- Saturation of `strtol`: a result outside `long` becomes `LONG_MIN` / `LONG_MAX`. -/
def clamp_long (v : Int) : Int :=
  if v < LONG_MIN then LONG_MIN else if LONG_MAX < v then LONG_MAX else v

/-- One optional sign character: whether it is `-`, and the text after it. -/
def read_sign (s : List Char) : Bool × List Char :=
  match s with
  | c :: r => if c = '-' then (true, r) else if c = '+' then (false, r) else (false, s)
  | [] => (false, s)

/-- Base selection of `strtol` with base argument 0: `0x`/`0X` followed by a hex
digit selects 16 and is skipped; any other leading `0` selects 8; otherwise 10. -/
def choose_base (s : List Char) : Nat × List Char :=
  match s with
  | c :: x :: h :: r =>
    if c = '0' ∧ (x = 'x' ∨ x = 'X') ∧ valid_digit 16 h = true then (16, h :: r)
    else if c = '0' then (8, s) else (10, s)
  | c :: _ => if c = '0' then (8, s) else (10, s)
  | [] => (10, s)

/-- The subject sequence of `strtol` after white space and sign: the magnitude of
the longest run of digits of the selected base and the unread rest; `none` when
there is no digit. -/
def strtol_digits (s : List Char) : Option (Nat × List Char) :=
  let based := choose_base s
  match based.2 with
  | [] => none
  | c :: _ => if valid_digit based.1 c = true then some (scan_digits based.1 based.2 0) else none

/-- The call `strtol(nptr, &endp, 0)` as ISO C99/C11 and POSIX define it: returns
the value and the text `endp` points to.  Leading white space is skipped, one
sign is read, the digits are converted and the result saturates; with no digits
the result is `0` and `endp = nptr`. -/
def strtol (nptr : List Char) : Int × List Char :=
  let signed := read_sign (nptr.dropWhile isspace)
  match strtol_digits signed.2 with
  | none => (0, nptr)
  | some r => (clamp_long (if signed.1 = true then -(r.1 : Int) else (r.1 : Int)), r.2)

/-- GNU `basename` (the one `<string.h>` declares under `_GNU_SOURCE`): the text
after the last `/`, the whole string when there is none; the argument is not
modified. -/
def basename : List Char → List Char
  | [] => []
  | c :: cs => if '/' ∈ cs then basename cs else if c = '/' then cs else c :: cs

/-- The copy loop of glibc `argz_create_sep`; `out` holds the bytes written so far,
most recent first.  A separator becomes a NUL unless nothing was written yet or
the previous byte written is already a NUL; the string's terminating NUL is
copied last. -/
def argz_copy (delim : Char) : List Char → List Char → List Char
  | [], out => '\x00' :: out
  | c :: cs, out =>
    if c = delim then
      match out with
      | [] => argz_copy delim cs out
      | p :: _ => if p = '\x00' then argz_copy delim cs out else argz_copy delim cs ('\x00' :: out)
    else argz_copy delim cs (c :: out)

/-- The call `argz_create_sep(string, delim, &argz, &len)`: the argz vector (its
length is `len`); empty (`argz = NULL`, `len = 0`) for the empty string. -/
def argz_create_sep (string : List Char) (delim : Char) : List Char :=
  match string with
  | [] => []
  | _ :: _ => (argz_copy delim string []).reverse

/-- The entries of an argz vector, as `argz_count` counts them and `argz_extract`
stores them in `argv[0..argc-1]`; `cur` is the entry being read, reversed. -/
def argz_entries : List Char → List Char → List (List Char)
  | [], _ => []
  | c :: cs, cur =>
    if c = '\x00' then cur.reverse :: argz_entries cs [] else argz_entries cs (c :: cur)

/-- The `argv` that `read_fifo` builds from the stripped line: `argz_create_sep`
with separator `' '`, then `argz_extract`. -/
def argv_of (line : List Char) : List (List Char) :=
  argz_entries (argz_create_sep line ' ') []

/-! ### Floating point

Finite values of `double` and `float` are exact fractions; each conversion and
each arithmetic operation rounds to the nearest value of its format, ties to
even, as IEEE 754 binary64 / binary32 do.  A result of `none` stands for an
infinity or a NaN. -/

/-- An exact fraction `num / den` (with `den > 0`). -/
structure Frac where
  num : Int
  den : Nat
  deriving DecidableEq, Repr

/-- Number of binary digits of `n` (`fuel` bounds the recursion; `fuel = n` suffices). -/
def bit_length : Nat → Nat → Nat
  | 0, _ => 0
  | fuel + 1, n => if n = 0 then 0 else bit_length fuel (n / 2) + 1

/-- The integer `e` with `2^e ≤ a/d < 2^(e+1)`, for positive `a` and `d`. -/
def floor_log2 (a d : Nat) : Int :=
  let e0 : Int := (bit_length a a : Int) - (bit_length d d : Int)
  if 0 ≤ e0 then (if 2 ^ e0.toNat * d ≤ a then e0 else e0 - 1)
  else (if d ≤ a * 2 ^ (-e0).toNat then e0 else e0 - 1)

/-- Rounding to a binary format with a `p`-bit significand and exponent range
`emin..emax` (subnormals included): nearest value, ties to even; `none` when the
result overflows to an infinity. -/
def round_bin (p : Nat) (emin emax : Int) (x : Frac) : Option Frac :=
  if x.num = 0 then some ⟨0, 1⟩
  else
    let a := x.num.natAbs
    let e := max (floor_log2 a x.den) emin
    let q : Int := e - ((p : Int) - 1)
    let n := a * 2 ^ (-q).toNat
    let d := x.den * 2 ^ q.toNat
    let f := n / d
    let r := n % d
    let m := if 2 * r < d then f else if d < 2 * r then f + 1 else f + f % 2
    if emax < e + (if 2 ^ p ≤ m then 1 else 0) then none
    else some ⟨(if x.num < 0 then -1 else 1) * ((m * 2 ^ q.toNat : Nat) : Int), 2 ^ (-q).toNat⟩

/-- Rounding to `double` (binary64). -/
def to_double (x : Frac) : Option Frac := round_bin 53 (-1022) 1023 x

/-- Rounding to `float` (binary32). -/
def to_float (x : Frac) : Option Frac := round_bin 24 (-126) 127 x

/-- Conversion of a floating value to an integer type: truncation toward zero. -/
def c_trunc (x : Frac) : Int := Int.tdiv x.num x.den

/-- The exponent part of a floating literal, read after the exponent letter: an
optional sign and at least one decimal digit; `0` when there is no digit. -/
def scan_exponent (s : List Char) : Int :=
  let signed := read_sign s
  match signed.2 with
  | [] => 0
  | c :: _ =>
    if valid_digit 10 c = true then
      let n := (scan_digits 10 signed.2 0).1
      if signed.1 = true then -(n : Int) else (n : Int)
    else 0

/-- The digits of a floating literal of `base` (10, or 16 after `0x`): digits with
at most one `.`, then an optional exponent introduced by `e`/`E` (a power of 10)
or by `p`/`P` for hexadecimal (a power of 2).  `none` when there is no digit. -/
def scan_float (base : Nat) (s : List Char) : Option Frac :=
  let ip := scan_digits base s 0
  let nint := s.length - ip.2.length
  let fp : Nat × List Char × Nat :=
    match ip.2 with
    | '.' :: r => let f := scan_digits base r ip.1; (f.1, f.2, r.length - f.2.length)
    | _ => (ip.1, ip.2, 0)
  if nint + fp.2.2 = 0 then none
  else
    let ex : Int :=
      match fp.2.1 with
      | c :: r =>
        if (base = 10 ∧ (c = 'e' ∨ c = 'E')) ∨ (base = 16 ∧ (c = 'p' ∨ c = 'P')) then scan_exponent r
        else 0
      | [] => 0
    let b : Nat := if base = 16 then 2 else 10
    some ⟨(fp.1 * b ^ ex.toNat : Nat), base ^ fp.2.2 * b ^ (-ex).toNat⟩

/-- The call `atof(nptr)`, that is `strtod(nptr, NULL)` in the C locale: white space
is skipped, one sign is read, then the longest hexadecimal (`0x`) or decimal
floating literal is converted and rounded to `double`; text that starts no number
gives `0`.  `none` for an infinite or NaN result (`inf`, `nan`, overflow). -/
def atof (nptr : List Char) : Option Frac :=
  let signed := read_sign (nptr.dropWhile isspace)
  let special : Bool :=
    match signed.2.map Char.toLower with
    | 'i' :: 'n' :: 'f' :: _ => true
    | 'n' :: 'a' :: 'n' :: _ => true
    | _ => false
  if special then none
  else
    let hex : Option Frac :=
      match signed.2 with
      | '0' :: x :: r => if x = 'x' ∨ x = 'X' then scan_float 16 r else none
      | _ => none
    let mag : Frac :=
      match hex with
      | some v => v
      | none => (scan_float 10 signed.2).getD ⟨0, 1⟩
    to_double ⟨(if signed.1 = true then -1 else 1) * mag.num, mag.den⟩

/-! ## The program -/

/-- The two name lookups of libevdev, `libevdev_event_type_from_name(name)` and
`libevdev_event_code_from_name(type, name)` as called with a `long` type; each
returns `-1` for a name it does not know. -/
structure Libevdev where
  event_type_from_name : List Char → Int
  event_code_from_name : Int → List Char → Int

/-- Source `parse_arg`: `none` is the return value 1, `some v` is return 0 with `*value = v`. -/
def parse_arg (arg : List Char) : Option Int :=
  let r := strtol arg
  if arg = [] ∨ r.2 ≠ [] then none else some r.1

/-- Source `parse_type`. -/
def parse_type (ev : Libevdev) (arg : List Char) : Option Int :=
  let value := ev.event_type_from_name arg
  if value ≠ -1 then some value else parse_arg arg

/-- Source `parse_code`. -/
def parse_code (ev : Libevdev) (type : Int) (arg : List Char) : Option Int :=
  let value := ev.event_code_from_name type arg
  if value ≠ -1 then some value else parse_arg arg

/-- The `struct timespec` handed to `nanosleep`. -/
structure timespec where
  tv_sec : Int
  tv_nsec : Int
  deriving DecidableEq, Repr

/-- The argument a line is rejected for. -/
inductive Field
  | type
  | code
  | value
  deriving DecidableEq, Repr

/-- What one iteration of the loop of `read_fifo` does with a line. -/
inductive Action
  /-- `ev_from_args(dev_path, type, code, value, sync)` is called. -/
  | emit (dev_path : List Char) (type code value : Int) (sync : Bool)
  /-- `nanosleep(&ts, NULL)` is called. -/
  | sleep (ts : timespec)
  /-- `continue` with nothing done. -/
  | skip
  /-- An `error: invalid ... argument` message is printed, then `continue`. -/
  | invalid (field : Field) (arg : List Char)
  /-- Undefined behaviour: a NULL pointer is dereferenced or memory outside the
  line buffer is written. -/
  | fault
  deriving DecidableEq, Repr

/-- Conversion of a `float` to `int`, as compiled for x86-64: truncation toward
zero; for a value outside `int`, an infinity or a NaN (`none`), where ISO C
leaves the conversion undefined, the conversion instruction gives `INT_MIN`. -/
def float_to_int (x : Option Frac) : Int :=
  match x with
  | none => INT_MIN
  | some v => if c_trunc v < INT_MIN ∨ INT_MAX < c_trunc v then INT_MIN else c_trunc v

/-- Conversion of a `float` to `long`, as compiled for x86-64: truncation toward
zero, and `LONG_MIN` for a value outside `long`, an infinity or a NaN. -/
def float_to_long (x : Option Frac) : Int :=
  match x with
  | none => LONG_MIN
  | some v => if c_trunc v < LONG_MIN ∨ LONG_MAX < c_trunc v then LONG_MIN else c_trunc v

/-- Lines 192-195 of `read_fifo`: the time handed to `nanosleep` for the argument
of `WAIT`.  The result of `atof` is converted to `float`; its conversion to `int`
is `tv_sec`; `tv_sec` is converted back to `float`, subtracted, the difference is
multiplied by `1000000`, each operation rounding to `float` (a result that is not
finite stays so), and the conversion of the product to `long` is `tv_nsec`.
Nothing is checked between the conversions and the call. -/
def wait_timespec (arg : List Char) : timespec :=
  let wait_time := (atof arg).bind to_float
  let sec := float_to_int wait_time
  let fsec := to_float ⟨sec, 1⟩
  let diff := wait_time.bind (fun w => fsec.bind (fun f =>
    to_float ⟨w.num * f.den - f.num * w.den, w.den * f.den⟩))
  let prod := diff.bind (fun d => to_float ⟨d.num * 1000000, d.den⟩)
  ⟨sec, float_to_long prod⟩

/-- Lines 209-216 of `read_fifo`: the path given to the emitter for a device argument. -/
def dev_path (arg0 : List Char) : List Char :=
  if basename arg0 ≠ arg0 then arg0 else "/dev/input/".toList ++ arg0

/-- Lines 203-236 of `read_fifo`, reached with `argc` 4 or 5; `arg4` is `argv[4]`
when `argc = 5`. -/
def emit_line (ev : Libevdev) (arg0 arg1 arg2 arg3 : List Char) (arg4 : Option (List Char)) :
    Action :=
  let path := dev_path arg0
  match parse_type ev arg1 with
  | none => .invalid .type arg1
  | some type =>
    match parse_code ev type arg2 with
    | none => .invalid .code arg2
    | some code =>
      match parse_arg arg3 with
      | none => .invalid .value arg3
      | some value =>
        if value < INT_MIN ∨ value > INT_MAX then .invalid .value arg3
        else .emit path type code value (decide (arg4 = some "SYNC".toList))

/-- Lines 189-236 of `read_fifo`: the handling of the extracted `argv`
(`argc = argv.length`, and `argv[argc]` is the NULL that `argz_extract` stores). -/
def process_argv (ev : Libevdev) (argv : List (List Char)) : Action :=
  match argv with
  | [] => .skip
  | arg0 :: rest =>
    if arg0 = "WAIT".toList then
      match rest with
      | [] => .fault
      | arg1 :: _ => .sleep (wait_timespec arg1)
    else
      match rest with
      | [arg1, arg2, arg3] => emit_line ev arg0 arg1 arg2 arg3 none
      | [arg1, arg2, arg3, arg4] => emit_line ev arg0 arg1 arg2 arg3 (some arg4)
      | _ => .skip

/-- Lines 173-237 of `read_fifo` for the buffer `buf` that `getline` returned: the
C string in it ends at the first NUL; its last character is overwritten with NUL
(a write before the buffer when the string is empty); the rest is split and
handled. -/
def handle_line (ev : Libevdev) (buf : List Char) : Action :=
  match buf.takeWhile (fun c => c != '\x00') with
  | [] => .fault
  | c :: cs => process_argv ev (argv_of (c :: cs).dropLast)

/-- What `getline` gives one iteration of the loop of `read_fifo`. -/
inductive Input
  /-- A line was read into the buffer. -/
  | line (buf : List Char)
  /-- The call returned -1; `reopen` tells whether the `fopen` of line 169 then
  succeeds. -/
  | eof (reopen : Bool)
  deriving DecidableEq, Repr

/-- The variables of `read_fifo` at the head of its loop. -/
structure FifoState where
  /-- The variable `fp`: `none` is NULL, `some h` is the stream numbered `h`. -/
  fp : Option Nat
  /-- The streams `fopen` returned that have not been closed, oldest first. -/
  open_streams : List Nat
  /-- What the iterations so far did with their lines, oldest first. -/
  actions : List Action
  deriving DecidableEq, Repr

/-- Where an execution of `read_fifo` stands. -/
inductive Run
  /-- The function returned `rc`. -/
  | returned (rc : Int)
  /-- At the head of the loop, about to call `getline`. -/
  | awaiting (s : FifoState)
  /-- Undefined behaviour was executed. -/
  | crashed (s : FifoState)
  deriving DecidableEq, Repr

/-- Lines 152-162 of `read_fifo`: `mkfifo` (its result is not looked at), then
`fopen`; `open_ok` tells whether that `fopen` succeeds. -/
def read_fifo_open (open_ok : Bool) : Run :=
  if open_ok = true then .awaiting ⟨some 0, [0], []⟩ else .returned (-1)

/-- One iteration of the loop, lines 165-237.  The only statements that leave an
iteration are `continue` and the end of the body. -/
def loop_iteration (ev : Libevdev) (s : FifoState) (i : Input) : Run :=
  match s.fp with
  | none => .crashed s
  | some _ =>
    match i with
    | .eof reopen =>
      if reopen = true then
        .awaiting { s with fp := some s.open_streams.length,
                           open_streams := s.open_streams ++ [s.open_streams.length] }
      else .awaiting { s with fp := none }
    | .line buf =>
      match handle_line ev buf with
      | .fault => .crashed s
      | a => .awaiting { s with actions := s.actions ++ [a] }

/-- The loop of `read_fifo` over the successive results of `getline`. -/
def read_fifo_loop (ev : Libevdev) : Run → List Input → Run
  | .awaiting s, i :: rest => read_fifo_loop ev (loop_iteration ev s i) rest
  | r, _ => r

/-- Source `read_fifo`, observed after `getline` was called `inputs.length` times
at most. -/
def read_fifo (ev : Libevdev) (open_ok : Bool) (inputs : List Input) : Run :=
  read_fifo_loop ev (read_fifo_open open_ok) inputs

/-! ### The emitter and the entry point -/

/-- The constants `EV_SYN` and `SYN_REPORT` of `linux/input.h`. -/
def EV_SYN : Int := 0

def SYN_REPORT : Int := 0

/-- What the operating system and libevemu answer during one call of
`ev_from_args`: `open(path, O_WRONLY)` (a descriptor, or a negative value),
`evemu_create_event(&ev, type, code, value)` and the successive calls of
`evemu_play_one(fd, &ev)` (0 for success).  The two evemu functions are defined
in a source file of the repository that is not at hand; only their return values
are used by the program. -/
structure World where
  open_wronly : List Char → Int
  create_event : Int → Int → Int → Int
  play_one : Nat → Int

/-- The calls `ev_from_args` makes, with what each returned.  The event record
handed to `evemu_play_one` is named by the arguments of the `evemu_create_event`
call that filled it. -/
inductive Op
  | open (path : List Char) (fd : Int)
  | create (type code value : Int) (r : Int)
  | play (fd : Int) (type code value : Int) (r : Int)
  | close (fd : Int)
  deriving DecidableEq, Repr

/-- The label `out` of `ev_from_args`: `close(fd)` when `fd > -1`. -/
def ev_out (fd : Int) : List Op :=
  if fd > -1 then [.close fd] else []

/-- Source `ev_from_args`: the return value and the calls made, in order
(messages to `stderr` are left out). -/
def ev_from_args (w : World) (path : List Char) (type code value : Int) (sync : Bool) :
    Int × List Op :=
  let fd := w.open_wronly path
  if fd < 0 then (-1, [.open path fd] ++ ev_out fd)
  else
    let c1 := w.create_event type code value
    if c1 ≠ 0 then (-1, [.open path fd, .create type code value c1] ++ ev_out fd)
    else
      let p1 := w.play_one 0
      if p1 ≠ 0 then
        (-1, [.open path fd, .create type code value c1, .play fd type code value p1] ++ ev_out fd)
      else if sync = true then
        let c2 := w.create_event EV_SYN SYN_REPORT 0
        if c2 ≠ 0 then
          (-1, [.open path fd, .create type code value c1, .play fd type code value p1,
            .create EV_SYN SYN_REPORT 0 c2] ++ ev_out fd)
        else
          let p2 := w.play_one 1
          if p2 ≠ 0 then
            (-1, [.open path fd, .create type code value c1, .play fd type code value p1,
              .create EV_SYN SYN_REPORT 0 c2, .play fd EV_SYN SYN_REPORT 0 p2] ++ ev_out fd)
          else
            (0, [.open path fd, .create type code value c1, .play fd type code value p1,
              .create EV_SYN SYN_REPORT 0 c2, .play fd EV_SYN SYN_REPORT 0 p2] ++ ev_out fd)
      else
        (0, [.open path fd, .create type code value c1, .play fd type code value p1] ++ ev_out fd)

/-- The `has_arg` field of a `struct option`. -/
inductive HasArg
  | no_argument
  | required_argument
  | optional_argument
  deriving DecidableEq, Repr

/-- The table `opts` of the source: name, `has_arg`, `val`.  The source table has
these six entries and no terminating null entry. -/
def opts : List (List Char × HasArg × Char) :=
  [("type".toList, .required_argument, 't'),
   ("code".toList, .required_argument, 'c'),
   ("value".toList, .required_argument, 'v'),
   ("sync".toList, .no_argument, 's'),
   ("device".toList, .required_argument, 'd'),
   ("fifo".toList, .optional_argument, 'f')]

/-- Long-option lookup of glibc `getopt_long`: the entries are compared with the
name in order, and the lookup stops at the first entry whose name is exactly the
name.  `none` when no entry of the table has exactly this name: the lookup,
which ends only at an entry with a null name, then reads past the six entries
of `opts`, and the behaviour is undefined. -/
def find_long (name : List Char) : Option (HasArg × Char) :=
  (opts.find? (fun o => decide (o.1 = name))).map (fun o => o.2)

/-- One long option of glibc `getopt_long`, for the text `body` after `--` and the
argument that follows on the command line, if any: the value returned (the `val`
of the entry, or `?`), `optarg`, and whether the following argument was taken
as `optarg`.  A value given with `=` is refused by an entry with `no_argument`;
a `required_argument` without `=` takes the following argument and fails when
there is none.  `none` when the name before `=` is not exactly a name of the
table (undefined behaviour, see `find_long`). -/
def long_option (body : List Char) (next : Option (List Char)) :
    Option (Char × Option (List Char) × Bool) :=
  match find_long (body.takeWhile (fun c => c != '=')) with
  | none => none
  | some (has, val) =>
    match body.dropWhile (fun c => c != '=') with
    | _ :: given =>
      if has = .no_argument then some ('?', none, false) else some (val, some given, false)
    | [] =>
      if has = .required_argument then
        match next with
        | some arg => some (val, some arg, true)
        | none => some ('?', none, false)
      else some (val, none, false)

/-- The successive results of `getopt_long(argc, argv, "", opts, &option_index)`
over the arguments after `argv[0]`, as glibc computes them without
`POSIXLY_CORRECT`: each result is the value returned (an option's `val`, or `?`)
with `optarg`; the second component is `argv[optind..]` after the last call, the
non-option arguments.  `--` ends the options; an argument `-x...` is a cluster of
short options, none of which is in the empty option string (the table is not
looked at); any other argument is passed over.  A long option whose name is not
exactly a name of the table gives the result `none`, a call whose behaviour is
undefined, and no result after it.  `skipped` holds the non-options passed over
so far, most recent first. -/
def getopt_long_all : List (List Char) → List (List Char) →
    List (Option (Char × Option (List Char))) × List (List Char)
  | [], skipped => ([], skipped.reverse)
  | a :: rest, skipped =>
    match a with
    | '-' :: '-' :: body =>
      match body with
      | [] => ([], skipped.reverse ++ rest)
      | _ :: _ =>
        match rest with
        | next :: rest2 =>
          match long_option body (some next) with
          | none => ([none], [])
          | some o =>
            let r :=
              if o.2.2 = true then getopt_long_all rest2 skipped
              else getopt_long_all (next :: rest2) skipped
            (some (o.1, o.2.1) :: r.1, r.2)
        | [] =>
          match long_option body none with
          | none => ([none], [])
          | some o => ([some (o.1, o.2.1)], skipped.reverse)
    | '-' :: c :: cs =>
      let r := getopt_long_all rest skipped
      (List.replicate (c :: cs).length (some ('?', none)) ++ r.1, r.2)
    | _ => getopt_long_all rest (a :: skipped)

/-- The variables of `main` that the option loop sets. -/
structure MainVars where
  type_arg : Option (List Char)
  code_arg : Option (List Char)
  value : Int
  path : Option (List Char)
  sync : Bool
  fifo_path : Option (List Char)
  deriving DecidableEq, Repr

/-- The initial values: `value = LONG_MAX`, `sync = 0`, the pointers NULL. -/
def main_init : MainVars := ⟨none, none, LONG_MAX, none, false, none⟩

/-- The `switch` of `main` for one result of `getopt_long`; `none` is `goto out`. -/
def main_switch (vars : MainVars) (c : Char) (optarg : Option (List Char)) : Option MainVars :=
  if c = 't' then some { vars with type_arg := optarg }
  else if c = 'c' then some { vars with code_arg := optarg }
  else if c = 'v' then
    match optarg with
    | none => none
    | some arg =>
      match parse_arg arg with
      | none => none
      | some value => if value < INT_MIN ∨ value > INT_MAX then none else some { vars with value := value }
  else if c = 'd' then some { vars with path := optarg }
  else if c = 's' then some { vars with sync := true }
  else if c = 'f' then some { vars with fifo_path := optarg }
  else none

/-- How the option loop of `main` ends. -/
inductive Scan
  /-- `getopt_long` returned -1: the loop is left by `break`. -/
  | finished (vars : MainVars)
  /-- The `switch` left the loop by `goto out`. -/
  | out
  /-- A call of `getopt_long` had undefined behaviour. -/
  | undefined
  deriving DecidableEq, Repr

/-- The option loop of `main`, lines 254-288, over the successive results of
`getopt_long`; no call is made after a `goto out`. -/
def main_options (vars : MainVars) : List (Option (Char × Option (List Char))) → Scan
  | [] => .finished vars
  | none :: _ => .undefined
  | some (c, optarg) :: rest =>
    match main_switch vars c optarg with
    | none => .out
    | some vars2 => main_options vars2 rest

/-- How `main` ends. -/
inductive MainRun
  /-- `read_fifo(path)` is called; `main` returns what it returns, if it does. -/
  | stream (path : List Char)
  /-- The return value, with the calls `ev_from_args` made if it was called. -/
  | done (rc : Int) (ops : List Op)
  /-- The behaviour is undefined: `getopt_long` read past the end of `opts`. -/
  | undefined
  deriving DecidableEq, Repr

/-- Lines 316-331 of `main`: the device path, from the option or from the single
remaining argument, then the call of the emitter. -/
def main_emit (w : World) (vars : MainVars) (remaining : List (List Char)) (type code : Int) :
    MainRun :=
  let chosen : Option (Option (List Char)) :=
    match remaining with
    | [] => some vars.path
    | [p] => if vars.path.isSome then none else some (some p)
    | _ => none
  match chosen with
  | some (some path) =>
    let r := ev_from_args w path type code vars.value vars.sync
    .done r.1 r.2
  | _ => .done (-1) []

/-- Source `main` (`argc = argv.length`; messages to `stderr` are left out). -/
def main (ev : Libevdev) (w : World) (argv : List (List Char)) : MainRun :=
  let parsed := getopt_long_all argv.tail []
  match main_options main_init parsed.1 with
  | .undefined => .undefined
  | .out => .done (-1) []
  | .finished vars =>
    match vars.fifo_path with
    | some fifo => .stream fifo
    | none =>
      if argv.length < 5 then .done (-1) []
      else
        match vars.type_arg, vars.code_arg with
        | some type_arg, some code_arg =>
          if vars.value = LONG_MAX then .done (-1) []
          else
            match parse_type ev type_arg with
            | none => .done (-1) []
            | some type =>
              match parse_code ev type code_arg with
              | none => .done (-1) []
              | some code => main_emit w vars parsed.2 type code
        | _, _ => .done (-1) []

/-! ## Vocabulary of the specification -/

/-- Value of a string of digits read in `base`. -/
def digits_value (base : Nat) (ds : List Char) : Nat :=
  ds.foldl (fun acc c => acc * base + (digit_value c).getD 0) 0

/-- The value of `s` when the whole of `s` is an unsigned integer literal:
`0x`/`0X` and at least one hexadecimal digit; or `0` and octal digits; or decimal
digits not starting with `0`. -/
def literal_magnitude (s : List Char) : Option Nat :=
  match s with
  | [] => none
  | c :: r =>
    if c = '0' then
      match r with
      | x :: ds =>
        if x = 'x' ∨ x = 'X' then
          (if ds ≠ [] ∧ ds.all (valid_digit 16) = true then some (digits_value 16 ds) else none)
        else (if r.all (valid_digit 8) = true then some (digits_value 8 r) else none)
      | [] => some 0
    else (if s.all (valid_digit 10) = true then some (digits_value 10 s) else none)

/-- The value of `tok` when the whole of `tok` is an integer literal with an
optional sign. -/
def int_literal (tok : List Char) : Option Int :=
  match tok with
  | c :: r =>
    if c = '-' then (literal_magnitude r).map (fun (n : Nat) => -(n : Int))
    else if c = '+' then (literal_magnitude r).map (fun (n : Nat) => (n : Int))
    else (literal_magnitude tok).map (fun (n : Nat) => (n : Int))
  | [] => none

/-- Whether a call failed: `open` returned a negative value, or an evemu function
returned a non-zero value. -/
def Op.failed : Op → Bool
  | .open _ fd => decide (fd < 0)
  | .create _ _ _ r => decide (r ≠ 0)
  | .play _ _ _ _ r => decide (r ≠ 0)
  | .close _ => false

/-- The calls an invocation of the emitter is to make before it closes the device:
the open, the construction and the write of the event, then, for `sync`, the
construction and the write of the synchronization event. -/
def emit_plan (w : World) (path : List Char) (type code value : Int) (sync : Bool) : List Op :=
  [.open path (w.open_wronly path),
   .create type code value (w.create_event type code value),
   .play (w.open_wronly path) type code value (w.play_one 0)] ++
  (if sync = true then
    [.create EV_SYN SYN_REPORT 0 (w.create_event EV_SYN SYN_REPORT 0),
     .play (w.open_wronly path) EV_SYN SYN_REPORT 0 (w.play_one 1)]
   else [])

/-- A list of calls cut after its first failing call. -/
def upto_failure : List Op → List Op
  | [] => []
  | o :: rest => if o.failed = true then [o] else o :: upto_failure rest

/-- The events handed to the device, in order. -/
def written : List Op → List (Int × Int × Int)
  | [] => []
  | .play _ type code value _ :: rest => (type, code, value) :: written rest
  | _ :: rest => written rest

/-- The descriptors closed, in order. -/
def closed : List Op → List Int
  | [] => []
  | .close fd :: rest => fd :: closed rest
  | _ :: rest => closed rest

/-- The calls other than `close`. -/
def steps : List Op → List Op
  | [] => []
  | .close _ :: rest => steps rest
  | o :: rest => o :: steps rest

/-- How many of type, code, value and device path the option loop has set. -/
def supplied (vars : MainVars) : Nat :=
  (if vars.type_arg.isSome = true then 1 else 0) + (if vars.code_arg.isSome = true then 1 else 0) +
    (if vars.value ≠ LONG_MAX then 1 else 0) + (if vars.path.isSome = true then 1 else 0)

/-- The number of results of `getopt_long` that are options of the table. -/
def options_found (events : List (Option (Char × Option (List Char)))) : Nat :=
  (events.filter (fun e => match e with
    | some (c, _) => c != '?'
    | none => false)).length

/-- The command line names exactly one device path `p`: by `--device` with no
argument remaining, or as the single remaining argument. -/
def single_device (vars : MainVars) (remaining : List (List Char)) (p : List Char) : Prop :=
  (vars.path = some p ∧ remaining = []) ∨ (vars.path = none ∧ remaining = [p])

instance (vars : MainVars) (remaining : List (List Char)) (p : List Char) :
    Decidable (single_device vars remaining p) :=
  inferInstanceAs (Decidable (_ ∨ _))

/-- Whether `tok` starts, after white space and one optional sign, with what
`strtod` reads as a floating-point number: a decimal digit, a `.` followed by a
decimal digit, or the letters `inf` or `nan` in either case. -/
def starts_number (tok : List Char) : Bool :=
  let s := tok.dropWhile isspace
  let body : List Char :=
    match s with
    | c :: r => if c = '-' ∨ c = '+' then r else s
    | [] => s
  (match body with
   | c :: d :: _ => valid_digit 10 c || (c == '.' && valid_digit 10 d)
   | [c] => valid_digit 10 c
   | [] => false) ||
    decide ((body.take 3).map Char.toLower = "inf".toList) ||
    decide ((body.take 3).map Char.toLower = "nan".toList)

/-- The rational number a fraction stands for. -/
def Frac.val (x : Frac) : ℚ := (x.num : ℚ) / (x.den : ℚ)

/-- A line of text as `getline` delivers it with its terminator: `content`, free
of NUL and newline characters, followed by the newline. -/
def terminated (buf content : List Char) : Prop :=
  buf = content ++ ['\n'] ∧ '\x00' ∉ content ∧ '\n' ∉ content

instance (buf content : List Char) : Decidable (terminated buf content) :=
  inferInstanceAs (Decidable (_ ∧ _ ∧ _))

/-- Three entries of the name tables of libevdev (`EV_SYN = 0`, `EV_KEY = 1`,
`EV_REL = 2`; `SYN_REPORT = 0`, `KEY_A = 30`, `REL_X = 0`), for concrete instances. -/
def sample_names : Libevdev where
  event_type_from_name := fun name =>
    if name = "EV_SYN".toList then 0
    else if name = "EV_KEY".toList then 1
    else if name = "EV_REL".toList then 2
    else -1
  event_code_from_name := fun type name =>
    if type = 0 ∧ name = "SYN_REPORT".toList then 0
    else if type = 1 ∧ name = "KEY_A".toList then 30
    else if type = 2 ∧ name = "REL_X".toList then 0
    else -1

/-- A world in which every call succeeds and `open` returns descriptor 3. -/
def sample_world : World where
  open_wronly := fun _ => 3
  create_event := fun _ _ _ => 0
  play_one := fun _ => 0

/-! ## Lemmas on the C library model -/

theorem takeWhile_not_nul (content : List Char) (h : '\x00' ∉ content) :
    (content ++ ['\n']).takeWhile (fun c => c != '\x00') = content ++ ['\n'] := by
  rw [List.takeWhile_eq_self_iff]
  intro c hc
  simp only [List.mem_append, List.mem_singleton] at hc
  rcases hc with hc | hc
  · have : c ≠ '\x00' := fun e => h (e ▸ hc)
    simpa using this
  · subst hc; decide

theorem handle_line_terminated (ev : Libevdev) (buf content : List Char)
    (h : terminated buf content) :
    handle_line ev buf = process_argv ev (argv_of content) := by
  obtain ⟨rfl, hnul, -⟩ := h
  unfold handle_line
  rw [takeWhile_not_nul content hnul]
  cases hc : content ++ ['\n'] with
  | nil => simp at hc
  | cons c cs => 
    simp only
    rw [← hc, List.dropLast_concat]

theorem argz_copy_token (t rest out : List Char) (ht : ' ' ∉ t) :
    argz_copy ' ' (t ++ rest) out = argz_copy ' ' rest (t.reverse ++ out) := by
  induction t generalizing out with
  | nil => rfl
  | cons c cs ih =>
    have hc : c ≠ ' ' := fun e => ht (e ▸ List.mem_cons_self _ _)
    have hcs : ' ' ∉ cs := fun h => ht (List.mem_cons_of_mem _ h)
    simp only [List.cons_append, argz_copy, hc, if_false, List.reverse_cons, List.append_assoc,
      List.singleton_append]
    exact ih _ hcs

theorem argz_entries_token (t rest cur : List Char) (ht : '\x00' ∉ t) :
    argz_entries (t ++ rest) cur = argz_entries rest (t.reverse ++ cur) := by
  induction t generalizing cur with
  | nil => rfl
  | cons c cs ih =>
    have hc : c ≠ '\x00' := fun e => ht (e ▸ List.mem_cons_self _ _)
    have hcs : '\x00' ∉ cs := fun h => ht (List.mem_cons_of_mem _ h)
    simp only [List.cons_append, argz_entries, hc, if_false, List.reverse_cons, List.append_assoc,
      List.singleton_append]
    exact ih _ hcs

/-- The argz vector of tokens: each token followed by a NUL. -/
theorem argz_entries_flatten (toks : List (List Char)) (h : ∀ t ∈ toks, '\x00' ∉ t) :
    argz_entries (toks.map (fun t => t ++ ['\x00'])).flatten [] = toks := by
  induction toks with
  | nil => rfl
  | cons t ts ih =>
    have ht : '\x00' ∉ t := h t (List.mem_cons_self _ _)
    have hts : ∀ u ∈ ts, '\x00' ∉ u := fun u hu => h u (List.mem_cons_of_mem _ hu)
    simp only [List.map_cons, List.flatten_cons, List.append_assoc, List.singleton_append]
    rw [argz_entries_token t _ [] ht]
    simp only [argz_entries, if_true, List.append_nil, List.reverse_reverse]
    rw [ih hts]

theorem argz_copy_join (t : List Char) (ts : List (List Char)) (out : List Char)
    (h : ∀ u ∈ t :: ts, u ≠ [] ∧ ' ' ∉ u ∧ '\x00' ∉ u) :
    argz_copy ' ' (" ".toList.intercalate (t :: ts)) out =
      (((t :: ts).map (fun u => u ++ ['\x00'])).flatten).reverse ++ out := by
  induction ts generalizing t out with
  | nil =>
    obtain ⟨-, hsp, -⟩ := h t (List.mem_cons_self _ _)
    have := argz_copy_token t [] out hsp
    simp only [List.append_nil] at this
    simp [List.intercalate, this, argz_copy]
  | cons u us ih =>
    obtain ⟨hne, hsp, hnul⟩ := h t (List.mem_cons_self _ _)
    have hrest : ∀ w ∈ u :: us, w ≠ [] ∧ ' ' ∉ w ∧ '\x00' ∉ w :=
      fun w hw => h w (List.mem_cons_of_mem _ hw)
    have hjoin : " ".toList.intercalate (t :: u :: us) =
        t ++ ' ' :: " ".toList.intercalate (u :: us) := by
      simp [List.intercalate, List.intersperse]
    rw [hjoin, argz_copy_token t _ out hsp]
    have hlast : ∃ l rest, t.reverse ++ out = l :: rest ∧ l ≠ '\x00' := by
      cases hr : t.reverse with
      | nil => exact absurd (List.reverse_eq_nil_iff.mp hr) hne
      | cons l rest =>
        refine ⟨l, rest ++ out, rfl, ?_⟩
        intro e
        apply hnul
        have : l ∈ t.reverse := by rw [hr]; exact List.mem_cons_self _ _
        rw [e] at this
        exact List.mem_reverse.mp this
    obtain ⟨l, rest, hl, hlne⟩ := hlast
    rw [hl]
    simp only [argz_copy, if_true, hlne, if_false]
    rw [ih u ('\x00' :: l :: rest) hrest, ← hl]
    simp

/-- On tokens joined by single spaces (each token non-empty, free of spaces and
NULs) the `argv` of `read_fifo` is the list of the tokens. -/
theorem argv_of_join (t : List Char) (ts : List (List Char))
    (h : ∀ u ∈ t :: ts, u ≠ [] ∧ ' ' ∉ u ∧ '\x00' ∉ u) :
    argv_of (" ".toList.intercalate (t :: ts)) = t :: ts := by
  have hne : " ".toList.intercalate (t :: ts) ≠ [] := by
    obtain ⟨hne, -, -⟩ := h t (List.mem_cons_self _ _)
    cases ts with
    | nil => simpa [List.intercalate] using hne
    | cons u us =>
      cases t with
      | nil => exact absurd rfl hne
      | cons c cs => simp [List.intercalate, List.intersperse]
  unfold argv_of argz_create_sep
  cases hj : " ".toList.intercalate (t :: ts) with
  | nil => exact absurd hj hne
  | cons c cs =>
    simp only
    rw [← hj, argz_copy_join t ts [] h]
    simp only [List.append_nil, List.reverse_reverse]
    exact argz_entries_flatten (t :: ts) (fun u hu => (h u hu).2.2)

theorem scan_digits_all (base : Nat) (s : List Char) (acc : Nat)
    (h : s.all (valid_digit base) = true) :
    scan_digits base s acc = (s.foldl (fun a c => a * base + (digit_value c).getD 0) acc, []) := by
  induction s generalizing acc with
  | nil => rfl
  | cons c cs ih =>
    simp only [List.all_cons, Bool.and_eq_true] at h
    obtain ⟨hc, hcs⟩ := h
    unfold valid_digit at hc
    cases hd : digit_value c with
    | none => simp [hd] at hc
    | some d =>
      simp only [hd, decide_eq_true_eq] at hc
      simp only [scan_digits, hd, hc, if_true, List.foldl_cons, Option.getD_some]
      exact ih _ hcs

theorem scan_digits_rest_nil (base : Nat) (s : List Char) (acc : Nat)
    (h : (scan_digits base s acc).2 = []) : s.all (valid_digit base) = true := by
  induction s generalizing acc with
  | nil => rfl
  | cons c cs ih =>
    unfold scan_digits at h
    cases hd : digit_value c with
    | none => simp [hd] at h
    | some d =>
      simp only [hd] at h
      by_cases hlt : d < base
      · simp only [hlt, if_true] at h
        simp only [List.all_cons, Bool.and_eq_true]
        exact ⟨by simp [valid_digit, hd, hlt], ih _ h⟩
      · simp [hlt] at h

theorem scan_digits_eq_nil_iff (base : Nat) (s : List Char) (n : Nat) :
    scan_digits base s 0 = (n, []) ↔ s.all (valid_digit base) = true ∧ n = digits_value base s := by
  constructor
  · intro h
    have hall := scan_digits_rest_nil base s 0 (by rw [h])
    refine ⟨hall, ?_⟩
    rw [scan_digits_all base s 0 hall] at h
    exact (congrArg Prod.fst h).symm
  · rintro ⟨hall, rfl⟩
    exact scan_digits_all base s 0 hall

theorem scan_digits_zero_cons (base : Nat) (hb : 0 < base) (r : List Char) :
    scan_digits base ('0' :: r) 0 = scan_digits base r 0 := by
  have hd : digit_value '0' = some 0 := by decide
  simp [scan_digits, hd, hb]

theorem digits_value_zero_cons (base : Nat) (r : List Char) :
    digits_value base ('0' :: r) = digits_value base r := by
  have hd : digit_value '0' = some 0 := by decide
  simp [digits_value, hd]

theorem scan_digits_letter_x (x : Char) (hx : x = 'x' ∨ x = 'X') (t : List Char) (acc : Nat) :
    scan_digits 8 (x :: t) acc = (acc, x :: t) := by
  rcases hx with rfl | rfl
  · have hd : digit_value 'x' = some 33 := by decide
    simp [scan_digits, hd]
  · have hd : digit_value 'X' = some 33 := by decide
    simp [scan_digits, hd]

theorem valid_digit_zero (base : Nat) (hb : 0 < base) : valid_digit base '0' = true := by
  have hd : digit_value '0' = some 0 := by decide
  simp [valid_digit, hd, hb]

theorem valid_digit_letter_x (x : Char) (hx : x = 'x' ∨ x = 'X') : valid_digit 8 x = false := by
  rcases hx with rfl | rfl <;> decide

/-- The conversion of `strtol` consumes the whole text exactly when the text is an
unsigned integer literal, and then yields its value. -/
theorem strtol_digits_eq_nil_iff (s : List Char) (n : Nat) :
    strtol_digits s = some (n, []) ↔ literal_magnitude s = some n := by
  cases s with
  | nil => simp [strtol_digits, choose_base, literal_magnitude]
  | cons c r =>
    by_cases hc : c = '0'
    · subst hc
      cases r with
      | nil =>
        have h1 : strtol_digits ['0'] = some (0, []) := by decide
        have h2 : literal_magnitude ['0'] = some 0 := by decide
        rw [h1, h2]
        simp
      | cons x ds =>
        by_cases hx : x = 'x' ∨ x = 'X'
        · cases ds with
          | nil =>
            simp [strtol_digits, choose_base, literal_magnitude, valid_digit_zero 8 (by decide),
              scan_digits_zero_cons 8 (by decide), scan_digits_letter_x x hx, hx]
          | cons h t =>
            by_cases hh : valid_digit 16 h = true
            · have hb : choose_base ('0' :: x :: h :: t) = (16, h :: t) := by
                simp [choose_base, hx, hh]
              simp only [strtol_digits, hb, hh, if_true, literal_magnitude, hx, ne_eq,
                reduceCtorEq, not_false_eq_true, true_and, Option.some.injEq]
              rw [scan_digits_eq_nil_iff]
              constructor
              · rintro ⟨ha, rfl⟩; simp [ha]
              · intro hl
                by_cases ha : (h :: t).all (valid_digit 16) = true
                · simp only [ha, if_true, Option.some.injEq] at hl
                  exact ⟨ha, hl.symm⟩
                · simp [ha] at hl
            · have hb : choose_base ('0' :: x :: h :: t) = (8, '0' :: x :: h :: t) := by
                simp [choose_base, hx, hh]
              simp [strtol_digits, hb, literal_magnitude, hx, hh, valid_digit_zero 8 (by decide),
                scan_digits_zero_cons 8 (by decide), scan_digits_letter_x x hx]
        · have hb : choose_base ('0' :: x :: ds) = (8, '0' :: x :: ds) := by
            cases ds with
            | nil => simp [choose_base]
            | cons h t => simp [choose_base, hx]
          simp only [strtol_digits, hb, valid_digit_zero 8 (by decide), if_true, literal_magnitude,
            hx, if_false]
          rw [scan_digits_zero_cons 8 (by decide), Option.some.injEq, scan_digits_eq_nil_iff]
          constructor
          · rintro ⟨ha, rfl⟩; simp [ha]
          · intro hl
            by_cases ha : (x :: ds).all (valid_digit 8) = true
            · simp only [ha, if_true, Option.some.injEq] at hl
              exact ⟨ha, hl.symm⟩
            · simp [ha] at hl
    · have hb : choose_base (c :: r) = (10, c :: r) := by
        cases r with
        | nil => simp [choose_base, hc]
        | cons x ds => cases ds <;> simp [choose_base, hc]
      simp only [strtol_digits, hb, literal_magnitude, hc, if_false]
      by_cases hv : valid_digit 10 c = true
      · simp only [hv, if_true, Option.some.injEq]
        rw [scan_digits_eq_nil_iff]
        constructor
        · rintro ⟨ha, rfl⟩; simp [ha]
        · intro hl
          by_cases ha : (c :: r).all (valid_digit 10) = true
          · simp only [ha, if_true, Option.some.injEq] at hl
            exact ⟨ha, hl.symm⟩
          · simp [ha] at hl
      · simp [hv]

theorem literal_magnitude_eq (r : List Char) :
    literal_magnitude r =
      (strtol_digits r).bind (fun p => if p.2 = [] then some p.1 else none) := by
  cases hl : literal_magnitude r with
  | some n =>
    rw [(strtol_digits_eq_nil_iff r n).2 hl]
    simp
  | none =>
    cases hs : strtol_digits r with
    | none => rfl
    | some p =>
      obtain ⟨m, rest⟩ := p
      by_cases hr : rest = []
      · subst hr
        rw [(strtol_digits_eq_nil_iff r m).1 hs] at hl
        cases hl
      · simp [hr]

/-- The function `parse_arg` accepts a text exactly when, after its leading white
space, it is a signed integer literal; the value is the literal's, saturated to
`long`. -/
theorem parse_arg_eq (tok : List Char) :
    parse_arg tok = (int_literal (tok.dropWhile isspace)).map clamp_long := by
  unfold parse_arg strtol
  cases hs : tok.dropWhile isspace with
  | nil =>
    have h0 : strtol_digits [] = none := rfl
    simp only [read_sign, h0, int_literal, Option.map_none']
    by_cases ht : tok = []
    · simp [ht]
    · simp [ht]
  | cons c r =>
    have ht : tok ≠ [] := by
      intro h
      rw [h] at hs
      simp at hs
    have fin : ∀ (neg : Bool) (body : List Char) (f : Nat → Int),
        (∀ m : Nat, f m = if neg = true then -(m : Int) else (m : Int)) →
        (if tok = [] ∨ (match strtol_digits body with
            | none => ((0 : Int), tok)
            | some q => (clamp_long (if neg = true then -(q.1 : Int) else (q.1 : Int)), q.2)).2 ≠ []
          then none
          else some (match strtol_digits body with
            | none => ((0 : Int), tok)
            | some q => (clamp_long (if neg = true then -(q.1 : Int) else (q.1 : Int)), q.2)).1)
        = ((literal_magnitude body).map f).map clamp_long := by
      intro neg body f hf
      rw [literal_magnitude_eq]
      cases hd : strtol_digits body with
      | none => simp [ht]
      | some q =>
        obtain ⟨m, rest⟩ := q
        by_cases hr : rest = []
        · simp [ht, hr, hf]
        · simp [ht, hr]
    by_cases hm : c = '-'
    · simp only [read_sign, hm, if_true, int_literal]
      exact fin true r _ (fun m => by simp)
    · by_cases hp : c = '+'
      · have hpm : ¬ ('+' = '-') := by decide
        simp only [read_sign, hp, hpm, if_true, if_false, int_literal]
        exact fin false r _ (fun m => by simp)
      · simp only [read_sign, hm, hp, if_false, int_literal]
        exact fin false (c :: r) _ (fun m => by simp)


theorem isspace_not_literal_start (c : Char) (h : isspace c = true) :
    c ≠ '-' ∧ c ≠ '+' ∧ c ≠ '0' ∧ valid_digit 10 c = false := by
  simp only [isspace, Bool.or_eq_true, beq_iff_eq] at h
  rcases h with ((((rfl | rfl) | rfl) | rfl) | rfl) | rfl <;> decide

theorem int_literal_no_leading_space (v : List Char) (va : Int) (h : int_literal v = some va) :
    v.dropWhile isspace = v := by
  cases v with
  | nil => rfl
  | cons c r =>
    by_cases hs : isspace c = true
    · obtain ⟨h1, h2, h3, h4⟩ := isspace_not_literal_start c hs
      simp [int_literal, h1, h2, literal_magnitude, h3, h4] at h
    · simp [List.dropWhile, hs]

theorem parse_arg_of_literal (tok : List Char) (n : Int) (hlit : int_literal tok = some n)
    (hlo : LONG_MIN ≤ n) (hhi : n ≤ LONG_MAX) : parse_arg tok = some n := by
  rw [parse_arg_eq, int_literal_no_leading_space tok n hlit, hlit]
  simp only [Option.map_some', clamp_long, not_lt.mpr hlo, not_lt.mpr hhi, if_false]

theorem clamp_long_int_range (v : Int) :
    (INT_MIN ≤ clamp_long v ∧ clamp_long v ≤ INT_MAX) ↔ (INT_MIN ≤ v ∧ v ≤ INT_MAX) := by
  simp only [clamp_long, LONG_MAX, LONG_MIN, INT_MAX, INT_MIN]
  split_ifs <;> omega

theorem clamp_long_of_int_range (v : Int) (h : INT_MIN ≤ v ∧ v ≤ INT_MAX) : clamp_long v = v := by
  simp only [clamp_long, LONG_MAX, LONG_MIN, INT_MAX, INT_MIN] at *
  split_ifs <;> omega

/-- The value branch of `emit_line`, in terms of the literal the value argument holds. -/
theorem basename_length_le (s : List Char) : (basename s).length ≤ s.length := by
  induction s with
  | nil => simp [basename]
  | cons c cs ih =>
    unfold basename
    split_ifs
    · exact Nat.le_succ_of_le ih
    · simp
    · exact Nat.le_refl _

theorem basename_eq_self_iff (s : List Char) : basename s = s ↔ '/' ∉ s := by
  cases s with
  | nil => simp [basename]
  | cons c cs =>
    unfold basename
    by_cases h1 : '/' ∈ cs
    · simp only [h1, if_true, List.mem_cons, or_true, not_true_eq_false, iff_false]
      intro h
      have := basename_length_le cs
      rw [h] at this
      simp at this
    · by_cases h2 : c = '/'
      · simp only [h1, if_false, h2, if_true, List.mem_cons, true_or, not_true_eq_false, iff_false]
        intro h
        have := congrArg List.length h
        simp at this
      · simp only [h1, if_false, h2, List.mem_cons, or_false, true_iff]
        exact fun h => h2 h.symm

theorem dev_path_eq (d : List Char) :
    dev_path d = if '/' ∈ d then d else "/dev/input/".toList ++ d := by
  unfold dev_path
  by_cases h : '/' ∈ d
  · have : basename d ≠ d := fun e => (basename_eq_self_iff d).1 e h
    simp only [this, h, ne_eq, not_false_eq_true, if_true]
  · have : basename d = d := (basename_eq_self_iff d).2 h
    simp only [this, h, ne_eq, not_true_eq_false, if_false]

theorem emit_line_eq (ev : Libevdev) (d t c v : List Char) (arg4 : Option (List Char))
    (ty co : Int) (hty : parse_type ev t = some ty) (hco : parse_code ev ty c = some co) :
    emit_line ev d t c v arg4 =
      match int_literal (v.dropWhile isspace) with
      | some va =>
        if INT_MIN ≤ va ∧ va ≤ INT_MAX then
          .emit (dev_path d) ty co va (decide (arg4 = some "SYNC".toList))
        else .invalid .value v
      | none => .invalid .value v := by
  unfold emit_line
  simp only [hty, hco, parse_arg_eq]
  cases hl : int_literal (v.dropWhile isspace) with
  | none => simp
  | some va =>
    simp only [Option.map_some']
    by_cases hr : INT_MIN ≤ va ∧ va ≤ INT_MAX
    · have hc := clamp_long_of_int_range va hr
      have hn : ¬ (va < INT_MIN ∨ va > INT_MAX) := by
        rintro (h | h)
        · exact absurd hr.1 (not_le.mpr h)
        · exact absurd hr.2 (not_le.mpr h)
      simp only [hc, hn, hr, if_false, and_self, if_true]
    · have hn : clamp_long va < INT_MIN ∨ clamp_long va > INT_MAX := by
        by_contra hcon
        apply hr
        rw [← clamp_long_int_range]
        constructor
        · exact not_lt.mp (fun h => hcon (Or.inl h))
        · exact not_lt.mp (fun h => hcon (Or.inr h))
      simp only [hn, hr, if_true, if_false]

theorem process_argv_emit_form (ev : Libevdev) (d t c v : List Char) (fifth : Option (List Char))
    (hwait : d ≠ "WAIT".toList) :
    process_argv ev (d :: t :: c :: v :: fifth.toList) = emit_line ev d t c v fifth := by
  cases fifth with
  | none =>
    simp only [Option.toList, process_argv]
    rw [if_neg hwait]
  | some f =>
    simp only [Option.toList, process_argv]
    rw [if_neg hwait]

/-! ## The claims -/

/-- C1: a terminated line that splits into 4 or 5 tokens `d t c v [fifth]`, with
`d` not `WAIT`, with type and code tokens that resolve to `ty` and `co` (the code
resolved under `ty`) and a value token that is an integer literal `va` of the
signed 32-bit range, makes the iteration call the emitter, once, with the device
path (`d` itself when it contains a `/`, else `/dev/input/` followed by `d`),
`ty`, `co`, `va` and the sync flag of the line (whether the fifth token is
`SYNC`). -/
theorem emit_on_well_formed_line (ev : Libevdev) (buf content d t c v : List Char)
    (fifth : Option (List Char)) (ty co va : Int)
    (hline : terminated buf content)
    (htok : argv_of content = d :: t :: c :: v :: fifth.toList)
    (hwait : d ≠ "WAIT".toList)
    (hty : parse_type ev t = some ty)
    (hco : parse_code ev ty c = some co)
    (hva : int_literal v = some va)
    (hrange : INT_MIN ≤ va ∧ va ≤ INT_MAX) :
    handle_line ev buf =
      .emit (if '/' ∈ d then d else "/dev/input/".toList ++ d) ty co va
        (decide (fifth = some "SYNC".toList)) := by
  rw [handle_line_terminated ev buf content hline, htok, process_argv_emit_form ev d t c v fifth hwait,
    emit_line_eq ev d t c v fifth ty co hty hco, int_literal_no_leading_space v va hva, hva,
    dev_path_eq]
  simp only [hrange, and_self, if_true]

theorem emit_on_well_formed_line_witness :
    terminated "event3 EV_KEY KEY_A 1 SYNC\n".toList "event3 EV_KEY KEY_A 1 SYNC".toList ∧
    argv_of "event3 EV_KEY KEY_A 1 SYNC".toList =
      "event3".toList :: "EV_KEY".toList :: "KEY_A".toList :: "1".toList ::
        (some "SYNC".toList).toList ∧
    "event3".toList ≠ "WAIT".toList ∧
    parse_type sample_names "EV_KEY".toList = some 1 ∧
    parse_code sample_names 1 "KEY_A".toList = some 30 ∧
    int_literal "1".toList = some 1 ∧
    (INT_MIN ≤ (1 : Int) ∧ (1 : Int) ≤ INT_MAX) ∧
    handle_line sample_names "event3 EV_KEY KEY_A 1 SYNC\n".toList =
      .emit "/dev/input/event3".toList 1 30 1 true :=
  ⟨by decide, by decide, by decide, by decide, by decide, by decide, by decide,
    (emit_on_well_formed_line sample_names "event3 EV_KEY KEY_A 1 SYNC\n".toList
      "event3 EV_KEY KEY_A 1 SYNC".toList "event3".toList "EV_KEY".toList "KEY_A".toList
      "1".toList (some "SYNC".toList) 1 30 1
      (by decide) (by decide) (by decide) (by decide) (by decide) (by decide)
      (by decide)).trans (by decide)⟩

/-- C2: a terminated line whose first token is not `WAIT` and whose token count is
neither 4 nor 5 (0 tokens included) makes the iteration do nothing (no emitter
call, no sleep, no message) and the loop goes on to the next line. -/
theorem skip_on_other_token_count (ev : Libevdev) (buf content : List Char)
    (hline : terminated buf content)
    (hwait : (argv_of content).head? ≠ some "WAIT".toList)
    (hcount : (argv_of content).length ≠ 4 ∧ (argv_of content).length ≠ 5) :
    handle_line ev buf = .skip ∧
    ∀ (s : FifoState) (h : Nat), s.fp = some h →
      loop_iteration ev s (.line buf) = .awaiting { s with actions := s.actions ++ [.skip] } := by
  have hskip : handle_line ev buf = .skip := by
    rw [handle_line_terminated ev buf content hline]
    cases hargv : argv_of content with
    | nil => rfl
    | cons d rest =>
      rw [hargv] at hwait hcount
      have hd : d ≠ "WAIT".toList := by simpa using hwait
      unfold process_argv
      simp only [hd, if_false]
      match rest, hcount with
      | [], _ => rfl
      | [_], _ => rfl
      | [_, _], _ => rfl
      | [_, _, _], hc => simp at hc
      | [_, _, _, _], hc => simp at hc
      | _ :: _ :: _ :: _ :: _ :: _, _ => rfl
  refine ⟨hskip, ?_⟩
  intro s h hfp
  simp only [loop_iteration, hfp, hskip]

theorem skip_on_other_token_count_witness :
    terminated "event3 EV_KEY KEY_A\n".toList "event3 EV_KEY KEY_A".toList ∧
    (argv_of "event3 EV_KEY KEY_A".toList).head? ≠ some "WAIT".toList ∧
    ((argv_of "event3 EV_KEY KEY_A".toList).length ≠ 4 ∧
      (argv_of "event3 EV_KEY KEY_A".toList).length ≠ 5) ∧
    handle_line sample_names "event3 EV_KEY KEY_A\n".toList = .skip :=
  ⟨by decide, by decide, by decide,
    (skip_on_other_token_count sample_names "event3 EV_KEY KEY_A\n".toList
      "event3 EV_KEY KEY_A".toList
      (by decide) (by decide) (by decide)).1⟩

/-- C3 (the code departs from it): on the line `WAIT` with no second token, `argv`
holds one token, `read_fifo` reads `argv[1]`, which is the NULL that ends the
vector, and hands it to `atof`: the behaviour is undefined and the line is
classified as neither emit, wait nor ignored.  So it is on a line whose C string
has length zero (a buffer that starts with a NUL), where the terminator is
written before the buffer. -/
theorem bare_wait_reads_past_tokens (ev : Libevdev) :
    terminated "WAIT\n".toList "WAIT".toList ∧
    argv_of "WAIT".toList = ["WAIT".toList] ∧
    handle_line ev "WAIT\n".toList = .fault ∧
    handle_line ev ['\x00', '\n'] = .fault := by
  refine ⟨by decide, by decide, rfl, rfl⟩


/-- C4 as stated fails at two tokens that are no symbolic names: the literal
`9223372036854775808` is accepted with the value `9223372036854775807`, which is
not the literal's value; and `\t1`, which is not in its entirety an integer
literal, is accepted with the value 1. -/
theorem parse_type_not_whole_literal_value :
    sample_names.event_type_from_name "9223372036854775808".toList = -1 ∧
    int_literal "9223372036854775808".toList = some 9223372036854775808 ∧
    parse_type sample_names "9223372036854775808".toList = some 9223372036854775807 ∧
    sample_names.event_type_from_name "\t1".toList = -1 ∧
    int_literal "\t1".toList = none ∧
    parse_type sample_names "\t1".toList = some 1 := by
  decide

/-- C4 (amended): `parse_type`, and `parse_code` for a given type, return the value
of the name lookup when it is not the not-found value -1; otherwise they succeed
exactly when the token, after any leading white space, is a signed integer
literal (decimal, `0x` hexadecimal, `0` octal), and return its value saturated to
the range of `long`, hence the literal's value itself when it is within that
range.  When `1` is no type name and `0` no code name of type 1, the line
`event3 1 0 1` makes the emitter be called with type 1, code 0, value 1. -/
theorem parse_type_code_resolution (ev : Libevdev) (type : Int) (tok : List Char)
    (h1 : ev.event_type_from_name "1".toList = -1)
    (h0 : ev.event_code_from_name 1 "0".toList = -1) :
    parse_type ev tok =
      (if ev.event_type_from_name tok ≠ -1 then some (ev.event_type_from_name tok)
       else (int_literal (tok.dropWhile isspace)).map clamp_long) ∧
    parse_code ev type tok =
      (if ev.event_code_from_name type tok ≠ -1 then some (ev.event_code_from_name type tok)
       else (int_literal (tok.dropWhile isspace)).map clamp_long) ∧
    (∀ n : Int, int_literal (tok.dropWhile isspace) = some n → LONG_MIN ≤ n → n ≤ LONG_MAX →
      clamp_long n = n) ∧
    handle_line ev "event3 1 0 1\n".toList = .emit "/dev/input/event3".toList 1 0 1 false := by
  refine ⟨?_, ?_, ?_, ?_⟩
  · simp only [parse_type, parse_arg_eq]
  · simp only [parse_code, parse_arg_eq]
  · intro n _ hlo hhi
    simp only [clamp_long, not_lt.mpr hlo, not_lt.mpr hhi, if_false]
  · have hty : parse_type ev "1".toList = some 1 := by
      simp only [parse_type, h1]
      decide
    have hco : parse_code ev 1 "0".toList = some 0 := by
      simp only [parse_code, h0]
      decide
    have hline : terminated "event3 1 0 1\n".toList "event3 1 0 1".toList := by decide
    have htok : argv_of "event3 1 0 1".toList =
        "event3".toList :: "1".toList :: "0".toList :: "1".toList :: (none : Option (List Char)).toList := by
      decide
    rw [handle_line_terminated ev _ _ hline, htok,
      process_argv_emit_form ev _ _ _ _ none (by decide),
      emit_line_eq ev _ _ _ _ none 1 0 hty hco]
    decide

theorem parse_type_code_resolution_witness :
    sample_names.event_type_from_name "1".toList = -1 ∧
    sample_names.event_code_from_name 1 "0".toList = -1 ∧
    parse_type sample_names "0x1f".toList =
      (if sample_names.event_type_from_name "0x1f".toList ≠ -1
        then some (sample_names.event_type_from_name "0x1f".toList)
       else (int_literal ("0x1f".toList.dropWhile isspace)).map clamp_long) ∧
    handle_line sample_names "event3 1 0 1\n".toList =
      .emit "/dev/input/event3".toList 1 0 1 false :=
  ⟨by decide, by decide,
    (parse_type_code_resolution sample_names 1 "0x1f".toList (by decide) (by decide)).1,
    (parse_type_code_resolution sample_names 1 "0x1f".toList (by decide) (by decide)).2.2.2⟩

theorem loop_iteration_line (ev : Libevdev) (s : FifoState) (h : Nat) (buf : List Char)
    (hfp : s.fp = some h) (hact : handle_line ev buf ≠ .fault) :
    loop_iteration ev s (.line buf) =
      .awaiting { s with actions := s.actions ++ [handle_line ev buf] } := by
  cases ha : handle_line ev buf with
  | fault => exact absurd ha hact
  | emit p a b c d => simp only [loop_iteration, hfp, ha]
  | sleep ts => simp only [loop_iteration, hfp, ha]
  | skip => simp only [loop_iteration, hfp, ha]
  | invalid f a => simp only [loop_iteration, hfp, ha]

/-- C5 as stated fails: the value token `\t5` is not in its entirety an integer
literal, and the line is emitted, with the value 5. -/
theorem value_with_leading_tab_emitted :
    terminated "event3 EV_KEY KEY_A \t5\n".toList "event3 EV_KEY KEY_A \t5".toList ∧
    argv_of "event3 EV_KEY KEY_A \t5".toList =
      ["event3".toList, "EV_KEY".toList, "KEY_A".toList, "\t5".toList] ∧
    int_literal "\t5".toList = none ∧
    handle_line sample_names "event3 EV_KEY KEY_A \t5\n".toList =
      .emit "/dev/input/event3".toList 1 30 5 false := by
  decide

/-- C5 (amended): on a 4-or-5-token line that is no `WAIT` line and whose type and
code resolve, the emitter is called exactly when the value token, after any
leading white space, is a signed integer literal whose value `va` satisfies
`-2^31 ≤ va ≤ 2^31 - 1`, and it is then called with `va`; for any other token,
and for a literal out of that range however large, the line is rejected with a
message and the loop goes on to the next line. -/
theorem value_accepted_iff (ev : Libevdev) (buf content d t c v : List Char)
    (fifth : Option (List Char)) (ty co : Int)
    (hline : terminated buf content)
    (htok : argv_of content = d :: t :: c :: v :: fifth.toList)
    (hwait : d ≠ "WAIT".toList)
    (hty : parse_type ev t = some ty)
    (hco : parse_code ev ty c = some co) :
    handle_line ev buf =
      (match int_literal (v.dropWhile isspace) with
       | some va =>
         if INT_MIN ≤ va ∧ va ≤ INT_MAX then
           .emit (dev_path d) ty co va (decide (fifth = some "SYNC".toList))
         else .invalid .value v
       | none => .invalid .value v) ∧
    ∀ (s : FifoState) (h : Nat), s.fp = some h →
      loop_iteration ev s (.line buf) =
        .awaiting { s with actions := s.actions ++ [handle_line ev buf] } := by
  have heq := emit_line_eq ev d t c v fifth ty co hty hco
  rw [← process_argv_emit_form ev d t c v fifth hwait, ← htok,
    ← handle_line_terminated ev buf content hline] at heq
  refine ⟨heq, ?_⟩
  intro s h hfp
  apply loop_iteration_line ev s h buf hfp
  rw [heq]
  cases int_literal (v.dropWhile isspace) with
  | none => simp
  | some va => by_cases hr : INT_MIN ≤ va ∧ va ≤ INT_MAX <;> simp [hr]

theorem value_accepted_iff_witness :
    terminated "event3 EV_KEY KEY_A 99999999999999999999\n".toList
      "event3 EV_KEY KEY_A 99999999999999999999".toList ∧
    argv_of "event3 EV_KEY KEY_A 99999999999999999999".toList =
      "event3".toList :: "EV_KEY".toList :: "KEY_A".toList :: "99999999999999999999".toList ::
        (none : Option (List Char)).toList ∧
    "event3".toList ≠ "WAIT".toList ∧
    parse_type sample_names "EV_KEY".toList = some 1 ∧
    parse_code sample_names 1 "KEY_A".toList = some 30 ∧
    handle_line sample_names "event3 EV_KEY KEY_A 99999999999999999999\n".toList =
      .invalid .value "99999999999999999999".toList :=
  ⟨by decide, by decide, by decide, by decide, by decide,
    (value_accepted_iff sample_names "event3 EV_KEY KEY_A 99999999999999999999\n".toList
      "event3 EV_KEY KEY_A 99999999999999999999".toList "event3".toList "EV_KEY".toList
      "KEY_A".toList "99999999999999999999".toList none 1 30
      (by decide) (by decide) (by decide) (by decide) (by decide)).1.trans (by decide)⟩


theorem emit_line_emit_inv (ev : Libevdev) (d t c v : List Char) (fifth : Option (List Char))
    (p : List Char) (ty co va : Int) (sy : Bool)
    (h : emit_line ev d t c v fifth = .emit p ty co va sy) :
    p = dev_path d ∧ parse_type ev t = some ty ∧ parse_code ev ty c = some co ∧
      parse_arg v = some va ∧ ¬ (va < INT_MIN ∨ va > INT_MAX) ∧
      sy = decide (fifth = some "SYNC".toList) := by
  unfold emit_line at h
  cases hty : parse_type ev t with
  | none => simp [hty] at h
  | some ty1 =>
    simp only [hty] at h
    cases hco : parse_code ev ty1 c with
    | none => simp [hco] at h
    | some co1 =>
      simp only [hco] at h
      cases hva : parse_arg v with
      | none => simp [hva] at h
      | some va1 =>
        simp only [hva] at h
        by_cases hr : va1 < INT_MIN ∨ va1 > INT_MAX
        · simp [hr] at h
        · simp only [hr, if_false, Action.emit.injEq] at h
          obtain ⟨rfl, rfl, rfl, rfl, rfl⟩ := h
          exact ⟨rfl, rfl, hco, rfl, hr, rfl⟩

theorem emit_line_of_parts (ev : Libevdev) (d t c v : List Char) (fifth : Option (List Char))
    (ty co va : Int) (hty : parse_type ev t = some ty) (hco : parse_code ev ty c = some co)
    (hva : parse_arg v = some va) (hr : ¬ (va < INT_MIN ∨ va > INT_MAX)) :
    emit_line ev d t c v fifth =
      .emit (dev_path d) ty co va (decide (fifth = some "SYNC".toList)) := by
  unfold emit_line
  simp only [hty, hco, hva, hr, if_false]

theorem process_argv_emit_inv (ev : Libevdev) (argv : List (List Char))
    (p : List Char) (ty co va : Int) (sy : Bool)
    (h : process_argv ev argv = .emit p ty co va sy) :
    ∃ (d t c v : List Char) (fifth : Option (List Char)),
      argv = d :: t :: c :: v :: fifth.toList ∧ d ≠ "WAIT".toList ∧
      emit_line ev d t c v fifth = .emit p ty co va sy := by
  cases argv with
  | nil => simp [process_argv] at h
  | cons d rest =>
    simp only [process_argv] at h
    by_cases hw : d = "WAIT".toList
    · rw [if_pos hw] at h
      match rest, h with
      | [], h => simp at h
      | a :: _, h => simp at h
    · rw [if_neg hw] at h
      match rest, h with
      | [], h => simp at h
      | [_], h => simp at h
      | [_, _], h => simp at h
      | [t, c, v], h => exact ⟨d, t, c, v, none, rfl, hw, h⟩
      | [t, c, v, f], h => exact ⟨d, t, c, v, some f, rfl, hw, h⟩
      | _ :: _ :: _ :: _ :: _ :: _, h => simp at h

/-- C6: the path an emit line hands to the emitter is its device token `d` itself
when `d` contains `/`, and `/dev/input/` followed by `d` otherwise; `event3`
gives `/dev/input/event3` and `/tmp/myfifo` is unchanged. -/
theorem device_path_resolution (ev : Libevdev) (buf content d : List Char)
    (rest : List (List Char)) (p : List Char) (ty co va : Int) (sy : Bool)
    (hline : terminated buf content)
    (htok : argv_of content = d :: rest)
    (hemit : handle_line ev buf = .emit p ty co va sy) :
    p = (if '/' ∈ d then d else "/dev/input/".toList ++ d) ∧
    dev_path "event3".toList = "/dev/input/event3".toList ∧
    dev_path "/tmp/myfifo".toList = "/tmp/myfifo".toList := by
  refine ⟨?_, by decide, by decide⟩
  rw [handle_line_terminated ev buf content hline] at hemit
  obtain ⟨d1, t, c, v, fifth, hargv, -, hl⟩ := process_argv_emit_inv ev _ p ty co va sy hemit
  rw [htok] at hargv
  obtain ⟨rfl, -⟩ := List.cons.inj hargv
  rw [(emit_line_emit_inv ev _ t c v fifth p ty co va sy hl).1, dev_path_eq]

theorem device_path_resolution_witness :
    terminated "/tmp/myfifo EV_REL REL_X -3\n".toList "/tmp/myfifo EV_REL REL_X -3".toList ∧
    argv_of "/tmp/myfifo EV_REL REL_X -3".toList =
      "/tmp/myfifo".toList :: ["EV_REL".toList, "REL_X".toList, "-3".toList] ∧
    handle_line sample_names "/tmp/myfifo EV_REL REL_X -3\n".toList =
      .emit "/tmp/myfifo".toList 2 0 (-3) false ∧
    "/tmp/myfifo".toList =
      (if '/' ∈ "/tmp/myfifo".toList then "/tmp/myfifo".toList
       else "/dev/input/".toList ++ "/tmp/myfifo".toList) :=
  ⟨by decide, by decide, by decide,
    (device_path_resolution sample_names "/tmp/myfifo EV_REL REL_X -3\n".toList
      "/tmp/myfifo EV_REL REL_X -3".toList "/tmp/myfifo".toList
      ["EV_REL".toList, "REL_X".toList, "-3".toList] "/tmp/myfifo".toList 2 0 (-3) false
      (by decide) (by decide) (by decide)).1⟩


/-- C7: on an emit line the sync flag handed to the emitter is true exactly when
the line has 5 tokens and the fifth is `SYNC`; the line with the same first four
tokens and any fifth token `f`, and the line with those four tokens only, are
emitted too, with the same arguments and the flag `f = SYNC`, respectively
false. -/
theorem sync_flag_iff (ev : Libevdev) (buf content : List Char)
    (p : List Char) (ty co va : Int) (sy : Bool)
    (hline : terminated buf content)
    (hemit : handle_line ev buf = .emit p ty co va sy) :
    (sy = true ↔ (argv_of content).length = 5 ∧ (argv_of content)[4]? = some "SYNC".toList) ∧
    (∀ (buf2 content2 f : List Char), terminated buf2 content2 →
      argv_of content2 = (argv_of content).take 4 ++ [f] →
      handle_line ev buf2 = .emit p ty co va (decide (f = "SYNC".toList))) ∧
    (∀ (buf2 content2 : List Char), terminated buf2 content2 →
      argv_of content2 = (argv_of content).take 4 →
      handle_line ev buf2 = .emit p ty co va false) := by
  rw [handle_line_terminated ev buf content hline] at hemit
  obtain ⟨d, t, c, v, fifth, hargv, hw, hl⟩ := process_argv_emit_inv ev _ p ty co va sy hemit
  obtain ⟨rfl, hty, hco, hva, hr, hsy⟩ := emit_line_emit_inv ev d t c v fifth p ty co va sy hl
  have htake : (argv_of content).take 4 = [d, t, c, v] := by
    rw [hargv]
    rfl
  refine ⟨?_, ?_, ?_⟩
  · rw [hargv, hsy]
    cases fifth with
    | none => simp
    | some f => simp
  · intro buf2 content2 f hline2 hargv2
    rw [handle_line_terminated ev buf2 content2 hline2, hargv2, htake]
    have hform := process_argv_emit_form ev d t c v (some f) hw
    simp only [Option.toList] at hform
    simp only [List.cons_append, List.nil_append]
    rw [hform, emit_line_of_parts ev d t c v (some f) ty co va hty hco hva hr]
    simp
  · intro buf2 content2 hline2 hargv2
    rw [handle_line_terminated ev buf2 content2 hline2, hargv2, htake]
    have hform := process_argv_emit_form ev d t c v none hw
    simp only [Option.toList] at hform
    rw [hform, emit_line_of_parts ev d t c v none ty co va hty hco hva hr]
    simp

theorem sync_flag_iff_witness :
    terminated "event3 EV_KEY KEY_A 1 sync\n".toList "event3 EV_KEY KEY_A 1 sync".toList ∧
    handle_line sample_names "event3 EV_KEY KEY_A 1 sync\n".toList =
      .emit "/dev/input/event3".toList 1 30 1 false ∧
    (false = true ↔ (argv_of "event3 EV_KEY KEY_A 1 sync".toList).length = 5 ∧
      (argv_of "event3 EV_KEY KEY_A 1 sync".toList)[4]? = some "SYNC".toList) :=
  ⟨by decide, by decide,
    (sync_flag_iff sample_names "event3 EV_KEY KEY_A 1 sync\n".toList
      "event3 EV_KEY KEY_A 1 sync".toList "/dev/input/event3".toList 1 30 1 false
      (by decide) (by decide)).1⟩

/-- C8 (the code departs from it): for the line `WAIT 1.5`, where `atof` gives
exactly 3/2 (here with denominator 2^52), the sleep requested is 1 second and
500000 nanoseconds, 1.0005 s in all, less than 1.5 s: the fraction of a second is
multiplied by 10^6 and stored in the nanoseconds field. -/
theorem wait_fraction_scaled_by_million (ev : Libevdev) :
    terminated "WAIT 1.5\n".toList "WAIT 1.5".toList ∧
    atof "1.5".toList = some ⟨6755399441055744, 4503599627370496⟩ ∧
    handle_line ev "WAIT 1.5\n".toList = .sleep ⟨1, 500000⟩ ∧
    (1 : Int) * 1000000000 + 500000 < 1500000000 := by
  refine ⟨by decide, by decide, rfl, by decide⟩

theorem read_fifo_loop_not_awaiting (ev : Libevdev) (r : Run) (inputs : List Input)
    (h : ∀ s, r ≠ .awaiting s) : read_fifo_loop ev r inputs = r := by
  cases r with
  | awaiting s => exact absurd rfl (h s)
  | returned rc => cases inputs <;> rfl
  | crashed s => cases inputs <;> rfl

theorem loop_iteration_not_returned (ev : Libevdev) (s : FifoState) (i : Input) (rc : Int) :
    loop_iteration ev s i ≠ .returned rc := by
  unfold loop_iteration
  cases s.fp with
  | none => simp
  | some h =>
    cases i with
    | eof reopen => cases reopen <;> simp
    | line buf =>
      simp only
      cases handle_line ev buf <;> simp

theorem read_fifo_loop_not_returned (ev : Libevdev) (inputs : List Input) (r : Run)
    (h : ∀ rc, r ≠ .returned rc) : ∀ rc, read_fifo_loop ev r inputs ≠ .returned rc := by
  induction inputs generalizing r with
  | nil =>
    intro rc
    cases r with
    | awaiting s => simp [read_fifo_loop]
    | returned rc1 => exact absurd rfl (h rc1)
    | crashed s => simp [read_fifo_loop]
  | cons i rest ih =>
    intro rc
    cases r with
    | awaiting s =>
      simp only [read_fifo_loop]
      exact ih _ (loop_iteration_not_returned ev s i) rc
    | returned rc1 => exact absurd rfl (h rc1)
    | crashed s => simp [read_fifo_loop]

/-- C9 (the code departs from it): `read_fifo` returns, with -1, when the initial
open fails, and never returns once it succeeded; but not every step leads back to
awaiting the next line: the short line `WAIT` ends the execution in undefined
behaviour, whatever lines follow. -/
theorem bare_wait_ends_the_loop (ev : Libevdev) :
    (∀ rest, read_fifo ev true (.line "WAIT\n".toList :: rest) = .crashed ⟨some 0, [0], []⟩) ∧
    (∀ inputs, read_fifo ev false inputs = .returned (-1)) ∧
    (∀ inputs rc, read_fifo ev true inputs ≠ .returned rc) := by
  refine ⟨?_, ?_, ?_⟩
  · intro rest
    exact read_fifo_loop_not_awaiting ev (.crashed ⟨some 0, [0], []⟩) rest (by simp)
  · intro inputs
    exact read_fifo_loop_not_awaiting ev (.returned (-1)) inputs (by simp)
  · intro inputs rc
    exact read_fifo_loop_not_returned ev inputs _ (by simp [read_fifo_open]) rc

theorem read_fifo_loop_reopen (ev : Libevdev) (n k : Nat) (acts : List Action) :
    read_fifo_loop ev (.awaiting ⟨some k, List.range (k + 1), acts⟩)
        (List.replicate n (.eof true)) =
      .awaiting ⟨some (k + n), List.range (k + n + 1), acts⟩ := by
  induction n generalizing k with
  | zero => rfl
  | succ n ih =>
    have hstep : loop_iteration ev ⟨some k, List.range (k + 1), acts⟩ (.eof true) =
        .awaiting ⟨some (k + 1), List.range (k + 1 + 1), acts⟩ := by
      simp [loop_iteration, List.range_succ]
    rw [List.replicate_succ, read_fifo_loop, hstep, ih (k + 1)]
    have : k + 1 + n = k + (n + 1) := by omega
    rw [this]

/-- C10 (the code departs from it): an end of stream does not close the exhausted
stream, so after `n` ends of stream followed by successful reopens `n + 1` source
streams are open; and when a reopen fails the next read is made on the NULL
stream. -/
theorem reopen_keeps_old_stream_open (ev : Libevdev) :
    (∀ n, read_fifo ev true (List.replicate n (.eof true)) =
      .awaiting ⟨some n, List.range (n + 1), []⟩) ∧
    read_fifo ev true [.eof true] = .awaiting ⟨some 1, [0, 1], []⟩ ∧
    (∀ i rest, read_fifo ev true (.eof false :: i :: rest) = .crashed ⟨none, [0], []⟩) := by
  refine ⟨?_, rfl, ?_⟩
  · intro n
    have h := read_fifo_loop_reopen ev n 0 []
    simpa [read_fifo, read_fifo_open] using h
  · intro i rest
    exact read_fifo_loop_not_awaiting ev (.crashed ⟨none, [0], []⟩) rest (by simp)


/-- C11 (the code departs from it): with `--fifo=/tmp/f` on the command line, a
malformed or out-of-range `--value`, before or after it, an unknown option `-x`
or an argument given to `--sync` makes `main` return -1 from inside the option
loop, and `read_fifo` is not called; an unknown long option `--bogus` makes
`getopt_long` read past the table `opts`, which has no terminating entry, and
nothing is then guaranteed; without them, and with type, code and device
missing, `read_fifo` is called. -/
theorem fifo_not_reached_after_bad_option (ev : Libevdev) (w : World) :
    main ev w ["evemu-event".toList, "--fifo=/tmp/f".toList, "--value=abc".toList] =
      .done (-1) [] ∧
    main ev w ["evemu-event".toList, "--value=abc".toList, "--fifo=/tmp/f".toList] =
      .done (-1) [] ∧
    main ev w ["evemu-event".toList, "--fifo=/tmp/f".toList, "--value=2147483648".toList] =
      .done (-1) [] ∧
    main ev w ["evemu-event".toList, "--fifo=/tmp/f".toList, "-x".toList] =
      .done (-1) [] ∧
    main ev w ["evemu-event".toList, "--fifo=/tmp/f".toList, "--sync=1".toList] =
      .done (-1) [] ∧
    main ev w ["evemu-event".toList, "--fifo=/tmp/f".toList, "--bogus".toList] =
      .undefined ∧
    main ev w ["evemu-event".toList, "--fifo=/tmp/f".toList] = .stream "/tmp/f".toList ∧
    main ev w ["evemu-event".toList, "--fifo=/tmp/f".toList, "--value=7".toList, "x".toList,
      "y".toList] = .stream "/tmp/f".toList := by
  refine ⟨rfl, rfl, rfl, rfl, rfl, rfl, rfl, rfl⟩

/-- C13: the calls `ev_from_args` makes before closing the device are the open,
the construction and write of the event `(type, code, value)` and, for `sync`,
the construction and write of the event `(EV_SYN, SYN_REPORT, 0)`, in this order
and cut after the first that fails; it returns 0 when none failed and -1
otherwise.  So, when the open and the constructions succeed, the events written
are the primary event and then, exactly when `sync` is set and the primary
event was written successfully, the synchronization event. -/
theorem emitter_steps_and_result (w : World) (path : List Char) (type code value : Int)
    (sync : Bool) :
    steps (ev_from_args w path type code value sync).2 =
      upto_failure (emit_plan w path type code value sync) ∧
    ((ev_from_args w path type code value sync).1 = 0 ↔
      ∀ o ∈ (ev_from_args w path type code value sync).2, o.failed = false) ∧
    ((ev_from_args w path type code value sync).1 = 0 ∨
      (ev_from_args w path type code value sync).1 = -1) ∧
    (0 ≤ w.open_wronly path → w.create_event type code value = 0 →
      (sync = true → w.create_event EV_SYN SYN_REPORT 0 = 0) →
      written (ev_from_args w path type code value sync).2 =
        (type, code, value) ::
          (if sync = true ∧ w.play_one 0 = 0 then [(EV_SYN, SYN_REPORT, 0)] else [])) := by
  unfold ev_from_args emit_plan ev_out
  by_cases hfd : w.open_wronly path < 0
  · have h1 : ¬ (w.open_wronly path > -1) := by omega
    have h2 : ¬ (0 ≤ w.open_wronly path) := by omega
    simp [hfd, h1, h2, steps, upto_failure, Op.failed, written]
  · have h1 : w.open_wronly path > -1 := by omega
    have h2 : 0 ≤ w.open_wronly path := by omega
    by_cases hc1 : w.create_event type code value = 0
    · by_cases hp1 : w.play_one 0 = 0
      · cases sync with
        | false => simp [hfd, h1, h2, hc1, hp1, steps, upto_failure, Op.failed, written]
        | true =>
          by_cases hc2 : w.create_event EV_SYN SYN_REPORT 0 = 0
          · by_cases hp2 : w.play_one 1 = 0
            · simp [hfd, h1, h2, hc1, hp1, hc2, hp2, steps, upto_failure, Op.failed, written]
            · simp [hfd, h1, h2, hc1, hp1, hc2, hp2, steps, upto_failure, Op.failed, written]
          · simp [hfd, h1, h2, hc1, hp1, hc2, steps, upto_failure, Op.failed, written]
      · cases sync <;>
          simp [hfd, h1, h2, hc1, hp1, steps, upto_failure, Op.failed, written]
    · cases sync <;> simp [hfd, h1, h2, hc1, steps, upto_failure, Op.failed, written]

theorem emitter_steps_and_result_witness :
    (0 : Int) ≤ sample_world.open_wronly "/dev/input/event3".toList ∧
    sample_world.create_event 1 30 1 = 0 ∧
    written (ev_from_args sample_world "/dev/input/event3".toList 1 30 1 true).2 =
      (1, 30, 1) ::
        (if true = true ∧ sample_world.play_one 0 = 0 then [(EV_SYN, SYN_REPORT, 0)] else []) :=
  ⟨by decide, by decide,
    (emitter_steps_and_result sample_world "/dev/input/event3".toList 1 30 1 true).2.2.2
      (by decide) (by decide) (fun _ => by decide)⟩

/-- C14: `ev_from_args` closes the descriptor it opened exactly once, as its last
call, on the success path and on every failure path after a successful open;
when the open fails it closes nothing. -/
theorem emitter_closes_once (w : World) (path : List Char) (type code value : Int)
    (sync : Bool) :
    closed (ev_from_args w path type code value sync).2 =
      (if 0 ≤ w.open_wronly path then [w.open_wronly path] else []) ∧
    (ev_from_args w path type code value sync).2 =
      steps (ev_from_args w path type code value sync).2 ++
        (if 0 ≤ w.open_wronly path then [.close (w.open_wronly path)] else []) := by
  unfold ev_from_args ev_out
  by_cases hfd : w.open_wronly path < 0
  · have h1 : ¬ (w.open_wronly path > -1) := by omega
    have h2 : ¬ (0 ≤ w.open_wronly path) := by omega
    simp [hfd, h1, h2, steps, closed]
  · have h1 : w.open_wronly path > -1 := by omega
    have h2 : 0 ≤ w.open_wronly path := by omega
    simp only [hfd, h1, h2, if_true, if_false]
    split_ifs <;> simp [steps, closed]

/-- C15 (the code departs from it): the last line `event3 EV_KEY KEY_A 12`
delivered without a terminator loses its last character and is emitted with the
value 1, while the same text followed by a newline is emitted with the value 12. -/
theorem unterminated_line_loses_last_character :
    handle_line sample_names "event3 EV_KEY KEY_A 12".toList =
      .emit "/dev/input/event3".toList 1 30 1 false ∧
    handle_line sample_names "event3 EV_KEY KEY_A 12\n".toList =
      .emit "/dev/input/event3".toList 1 30 12 false ∧
    handle_line sample_names "event3 EV_KEY KEY_A 1 SYNC".toList =
      .emit "/dev/input/event3".toList 1 30 1 false ∧
    handle_line sample_names "event3 EV_KEY KEY_A 1 SYNC\n".toList =
      .emit "/dev/input/event3".toList 1 30 1 true := by
  decide


theorem options_found_replicate (n : Nat) (r : List (Option (Char × Option (List Char)))) :
    options_found (List.replicate n (some ('?', none)) ++ r) = options_found r := by
  induction n with
  | zero => rfl
  | succ n ih =>
    have : options_found (some ('?', none) :: (List.replicate n (some ('?', none)) ++ r)) =
        options_found (List.replicate n (some ('?', none)) ++ r) := by
      simp [options_found]
    rw [List.replicate_succ, List.cons_append, this, ih]

theorem options_found_cons (c : Char) (optarg : Option (List Char))
    (r : List (Option (Char × Option (List Char)))) :
    options_found (some (c, optarg) :: r) = (if c = '?' then 0 else 1) + options_found r := by
  unfold options_found
  rw [List.filter_cons]
  by_cases h : c = '?'
  · simp [h]
  · simp [h]
    omega

/-- Every option found, and every argument remaining, is an argument of the
command line of its own. -/
theorem getopt_long_all_count (n : Nat) :
    ∀ (args skipped : List (List Char)), args.length ≤ n →
      options_found (getopt_long_all args skipped).1 + (getopt_long_all args skipped).2.length ≤
        args.length + skipped.length := by
  induction n with
  | zero =>
    intro args skipped h
    have : args = [] := List.length_eq_zero.mp (Nat.le_zero.mp h)
    subst this
    simp [getopt_long_all, options_found]
  | succ n ih =>
    intro args skipped h
    cases args with
    | nil => simp [getopt_long_all, options_found]
    | cons a rest =>
      have hrest : rest.length ≤ n := by simpa using h
      have hr := ih rest skipped hrest
      have hs := ih rest (a :: skipped) hrest
      have h0 : options_found ([] : List (Option (Char × Option (List Char)))) = 0 := rfl
      have h1 : options_found ([none] : List (Option (Char × Option (List Char)))) = 0 := rfl
      simp only [List.length_cons] at hs ⊢
      unfold getopt_long_all
      split
      · rename_i body
        cases body with
        | nil =>
          simp only [h0, List.length_append, List.length_reverse]
          omega
        | cons b bs =>
          cases rest with
          | nil =>
            simp only
            cases long_option (b :: bs) none with
            | none =>
              simp only [h1, List.length_nil]
              omega
            | some o =>
              simp only [options_found_cons, h0, List.length_reverse, List.length_nil]
              split_ifs <;> omega
          | cons next rest2 =>
            simp only [List.length_cons] at hrest hr ⊢
            have h2 := ih rest2 skipped (by omega)
            cases long_option (b :: bs) (some next) with
            | none =>
              simp only [h1, List.length_nil]
              omega
            | some o =>
              simp only
              rw [options_found_cons]
              by_cases ho : o.2.2 = true
              · simp only [ho, if_true]
                split_ifs <;> omega
              · simp only [ho, if_false]
                split_ifs <;> omega
      · simp only
        rw [options_found_replicate]
        omega
      · omega

theorem main_switch_supplied (vars vars2 : MainVars) (c : Char) (optarg : Option (List Char))
    (h : main_switch vars c optarg = some vars2) :
    c ≠ '?' ∧ supplied vars2 ≤ supplied vars + 1 := by
  unfold main_switch at h
  have q : ∀ x : Char, x ≠ '?' ∨ x = '?' := fun x => (em (x = '?')).symm
  split_ifs at h with h1 h2 h3 h4 h5 h6
  · subst h1
    refine ⟨by decide, ?_⟩
    cases h
    simp only [supplied]
    split_ifs <;> omega
  · subst h2
    refine ⟨by decide, ?_⟩
    cases h
    simp only [supplied]
    split_ifs <;> omega
  · subst h3
    refine ⟨by decide, ?_⟩
    cases optarg with
    | none => simp at h
    | some arg =>
      simp only at h
      cases hp : parse_arg arg with
      | none => simp [hp] at h
      | some value =>
        simp only [hp] at h
        split_ifs at h
        cases h
        simp only [supplied]
        split_ifs <;> omega
  · subst h4
    refine ⟨by decide, ?_⟩
    cases h
    simp only [supplied]
    split_ifs <;> omega
  · subst h5
    refine ⟨by decide, ?_⟩
    cases h
    simp only [supplied]
    split_ifs <;> omega
  · subst h6
    refine ⟨by decide, ?_⟩
    cases h
    simp only [supplied]
    split_ifs <;> omega

theorem main_options_supplied (events : List (Option (Char × Option (List Char)))) :
    ∀ (vars vars2 : MainVars), main_options vars events = .finished vars2 →
      supplied vars2 ≤ supplied vars + options_found events := by
  induction events with
  | nil =>
    intro vars vars2 h
    simp only [main_options, Scan.finished.injEq] at h
    subst h
    simp [options_found]
  | cons e rest ih =>
    intro vars vars2 h
    cases e with
    | none => simp [main_options] at h
    | some e =>
      obtain ⟨c, optarg⟩ := e
      simp only [main_options] at h
      cases hs : main_switch vars c optarg with
      | none => simp [hs] at h
      | some vars1 =>
        simp only [hs] at h
        obtain ⟨hc, hle⟩ := main_switch_supplied vars vars1 c optarg hs
        have hrec := ih vars1 vars2 h
        have hcount : options_found (some (c, optarg) :: rest) = options_found rest + 1 := by
          rw [options_found_cons]
          simp only [hc, if_false]
          omega
        omega


theorem main_of_options (ev : Libevdev) (w : World) (prog : List Char) (args : List (List Char))
    (vars : MainVars) (t c : List Char) (ty co : Int)
    (hopts : main_options main_init (getopt_long_all args []).1 = .finished vars)
    (hfifo : vars.fifo_path = none) (hlen : 4 ≤ args.length)
    (ht : vars.type_arg = some t) (hc : vars.code_arg = some c) (hv : vars.value ≠ LONG_MAX)
    (hty : parse_type ev t = some ty) (hco : parse_code ev ty c = some co) :
    main ev w (prog :: args) = main_emit w vars (getopt_long_all args []).2 ty co := by
  have hl : ¬ ((prog :: args).length < 5) := by
    simp only [List.length_cons]
    omega
  simp only [main, List.tail_cons, hopts, hfifo, hl, if_false, ht, hc, hv, hty, hco]

/-- The command line `--type=T --code=C --value=V --device=P`, with `--sync` after
it or not: the option loop accepts it and sets its variables from it. -/
theorem main_options_canonical (T C V P : List Char) (va : Int) (sync : Bool)
    (hlit : int_literal V = some va) (hlo : INT_MIN ≤ va) (hhi : va ≤ INT_MAX) :
    (getopt_long_all (["--type=".toList ++ T, "--code=".toList ++ C, "--value=".toList ++ V,
        "--device=".toList ++ P] ++ (if sync = true then ["--sync".toList] else [])) []).2 = [] ∧
    main_options main_init
      (getopt_long_all (["--type=".toList ++ T, "--code=".toList ++ C, "--value=".toList ++ V,
        "--device=".toList ++ P] ++ (if sync = true then ["--sync".toList] else [])) []).1 =
      .finished ⟨some T, some C, va, some P, sync, none⟩ := by
  have hpa : parse_arg V = some va :=
    parse_arg_of_literal V va hlit (by simp only [INT_MIN, LONG_MIN] at hlo ⊢; omega)
      (by simp only [INT_MAX, LONG_MAX] at hhi ⊢; omega)
  have hr : ¬ (va < INT_MIN ∨ va > INT_MAX) := by omega
  cases sync with
  | false =>
    have hg : getopt_long_all (["--type=".toList ++ T, "--code=".toList ++ C,
        "--value=".toList ++ V, "--device=".toList ++ P] ++
          (if false = true then ["--sync".toList] else [])) [] =
        ([some ('t', some T), some ('c', some C), some ('v', some V), some ('d', some P)],
          []) := rfl
    rw [hg]
    refine ⟨rfl, ?_⟩
    simp [main_options, main_switch, main_init, hpa, hr]
  | true =>
    have hg : getopt_long_all (["--type=".toList ++ T, "--code=".toList ++ C,
        "--value=".toList ++ V, "--device=".toList ++ P] ++
          (if true = true then ["--sync".toList] else [])) [] =
        ([some ('t', some T), some ('c', some C), some ('v', some V), some ('d', some P),
          some ('s', none)], []) := rfl
    rw [hg]
    refine ⟨rfl, ?_⟩
    simp [main_options, main_switch, main_init, hpa, hr]

/-- C12 as stated fails: with type, code, value and one device path supplied and
resolving, an unknown option `-s`, or an argument given to `--sync`, makes `main`
return -1 without calling the emitter; with `--sync` in their place the emitter
is called once and `main` returns 0. -/
theorem oneshot_refused_on_bad_option :
    parse_type sample_names "EV_KEY".toList = some 1 ∧
    parse_code sample_names 1 "KEY_A".toList = some 30 ∧
    main sample_names sample_world
        ["evemu-event".toList, "--type=EV_KEY".toList, "--code=KEY_A".toList,
          "--value=1".toList, "--device=/dev/input/event3".toList, "-s".toList] =
      .done (-1) [] ∧
    main sample_names sample_world
        ["evemu-event".toList, "--type=EV_KEY".toList, "--code=KEY_A".toList,
          "--value=1".toList, "--device=/dev/input/event3".toList, "--sync=1".toList] =
      .done (-1) [] ∧
    main sample_names sample_world
        ["evemu-event".toList, "--type=EV_KEY".toList, "--code=KEY_A".toList,
          "--value=1".toList, "--device=/dev/input/event3".toList, "--sync".toList] =
      .done 0 [.open "/dev/input/event3".toList 3, .create 1 30 1 0, .play 3 1 30 1 0,
        .create 0 0 0 0, .play 3 0 0 0 0, .close 3] := by
  decide

/-- C12 (amended): in one-shot mode (no fifo path is set), when the option loop
ends without error, that is, every call of `getopt_long` returned an option of
the table in an accepted form and every `--value` was an integer literal in the
`int` range: when type, code and value were given, type and code resolve and the
command line names exactly one device path, `main` makes the one call
`ev_from_args(path, type, code, value, sync)` and returns what it returns, 0
exactly when it succeeded; when type, code, value or the device path is missing,
or when type or code does not resolve, `main` returns -1 and the emitter is not
called.  When the option loop stops on an option it refuses (an unknown short
option, an argument given to `--sync`, a missing argument, a value that does
not parse), `main` returns -1 and the emitter is not called, whatever else was
supplied.  In particular the command line
`--type=T --code=C --value=V --device=P`, with `--sync` after it or not, where
`T` and `C` resolve and `V` is an integer literal in the `int` range, makes the
one call `ev_from_args(P, type, code, value, sync)`. -/
theorem oneshot_emits_when_options_accepted (ev : Libevdev) (w : World) (prog : List Char)
    (args : List (List Char)) :
    (∀ (vars : MainVars) (t c p : List Char) (ty co : Int),
      main_options main_init (getopt_long_all args []).1 = .finished vars →
      vars.fifo_path = none →
      vars.type_arg = some t → vars.code_arg = some c → vars.value ≠ LONG_MAX →
      parse_type ev t = some ty → parse_code ev ty c = some co →
      single_device vars (getopt_long_all args []).2 p →
      main ev w (prog :: args) =
        .done (ev_from_args w p ty co vars.value vars.sync).1
          (ev_from_args w p ty co vars.value vars.sync).2) ∧
    (∀ (vars : MainVars),
      main_options main_init (getopt_long_all args []).1 = .finished vars →
      vars.fifo_path = none →
      (vars.type_arg = none ∨ vars.code_arg = none ∨ vars.value = LONG_MAX ∨
        (∀ p, ¬ single_device vars (getopt_long_all args []).2 p) ∨
        (∀ t, vars.type_arg = some t → parse_type ev t = none) ∨
        (∀ t ty c, vars.type_arg = some t → parse_type ev t = some ty →
          vars.code_arg = some c → parse_code ev ty c = none)) →
      main ev w (prog :: args) = .done (-1) []) ∧
    (main_options main_init (getopt_long_all args []).1 = .out →
      main ev w (prog :: args) = .done (-1) []) ∧
    (∀ (T C V P : List Char) (ty co va : Int) (sync : Bool),
      parse_type ev T = some ty → parse_code ev ty C = some co →
      int_literal V = some va → INT_MIN ≤ va → va ≤ INT_MAX →
      main ev w (prog :: (["--type=".toList ++ T, "--code=".toList ++ C,
          "--value=".toList ++ V, "--device=".toList ++ P] ++
            (if sync = true then ["--sync".toList] else []))) =
        .done (ev_from_args w P ty co va sync).1 (ev_from_args w P ty co va sync).2) := by
  refine ⟨?_, ?_, ?_, ?_⟩
  · intro vars t c p ty co hopts hfifo ht hc hv hty hco hdev
    have hsup := main_options_supplied _ _ _ hopts
    have hcount := getopt_long_all_count args.length args [] (Nat.le_refl _)
    have hinit : supplied main_init = 0 := by decide
    have hlen : 4 ≤ args.length := by
      rcases hdev with ⟨hp, hrem⟩ | ⟨hp, hrem⟩
      · have : supplied vars = 4 := by simp [supplied, ht, hc, hv, hp]
        simp only [List.length_nil] at hcount
        omega
      · have : supplied vars = 3 := by simp [supplied, ht, hc, hv, hp]
        rw [hrem] at hcount
        simp only [List.length_nil, List.length_singleton] at hcount
        omega
    rw [main_of_options ev w prog args vars t c ty co hopts hfifo hlen ht hc hv hty hco]
    rcases hdev with ⟨hp, hrem⟩ | ⟨hp, hrem⟩
    · simp only [main_emit, hrem, hp]
    · simp only [main_emit, hrem, hp, Option.isSome_none, Bool.false_eq_true, if_false]
  · intro vars hopts hfifo hmiss
    simp only [main, List.tail_cons, hopts, hfifo]
    by_cases hl : (prog :: args).length < 5
    · simp only [hl, if_true]
    · simp only [hl, if_false]
      cases ht : vars.type_arg with
      | none => rfl
      | some t =>
        cases hc : vars.code_arg with
        | none => rfl
        | some c =>
          simp only
          by_cases hv : vars.value = LONG_MAX
          · simp only [hv, if_true]
          · simp only [hv, if_false]
            cases hty : parse_type ev t with
            | none => rfl
            | some ty =>
              simp only
              cases hco : parse_code ev ty c with
              | none => rfl
              | some co =>
                simp only
                rcases hmiss with h | h | h | h | h | h
                · rw [ht] at h; cases h
                · rw [hc] at h; cases h
                · exact absurd h hv
                · unfold main_emit
                  cases hrem : (getopt_long_all args []).2 with
                  | nil =>
                    cases hp : vars.path with
                    | none => rfl
                    | some p => exact absurd (Or.inl ⟨hp, hrem⟩) (h p)
                  | cons p more =>
                    cases more with
                    | nil =>
                      cases hp : vars.path with
                      | none => exact absurd (Or.inr ⟨hp, hrem⟩) (h p)
                      | some q => simp
                    | cons q more2 => rfl
                · rw [h t ht] at hty; cases hty
                · rw [h t ty c ht hty hc] at hco; cases hco
  · intro hopts
    simp only [main, List.tail_cons, hopts]
  · intro T C V P ty co va sync hty hco hlit hlo hhi
    obtain ⟨hrem, hopts⟩ := main_options_canonical T C V P va sync hlit hlo hhi
    have hv : va ≠ LONG_MAX := by
      simp only [INT_MAX] at hhi
      simp only [LONG_MAX]
      omega
    rw [main_of_options ev w prog _ _ T C ty co hopts rfl (by cases sync <;> simp) rfl rfl
      hv hty hco, hrem]
    simp [main_emit]

theorem oneshot_emits_when_options_accepted_witness :
    main_options main_init (getopt_long_all
        ["--sync".toList, "/dev/input/event3".toList, "--type".toList, "EV_KEY".toList,
          "--code=KEY_A".toList, "--value=1".toList] []).1 =
      .finished ⟨some "EV_KEY".toList, some "KEY_A".toList, 1, none, true, none⟩ ∧
    parse_type sample_names "EV_KEY".toList = some 1 ∧
    parse_code sample_names 1 "KEY_A".toList = some 30 ∧
    single_device ⟨some "EV_KEY".toList, some "KEY_A".toList, 1, none, true, none⟩
      (getopt_long_all
        ["--sync".toList, "/dev/input/event3".toList, "--type".toList, "EV_KEY".toList,
          "--code=KEY_A".toList, "--value=1".toList] []).2 "/dev/input/event3".toList ∧
    main sample_names sample_world
        ["evemu-event".toList, "--sync".toList, "/dev/input/event3".toList, "--type".toList,
          "EV_KEY".toList, "--code=KEY_A".toList, "--value=1".toList] =
      .done 0 [.open "/dev/input/event3".toList 3, .create 1 30 1 0, .play 3 1 30 1 0,
        .create 0 0 0 0, .play 3 0 0 0 0, .close 3] :=
  ⟨by decide, by decide, by decide, by decide,
    ((oneshot_emits_when_options_accepted sample_names sample_world "evemu-event".toList
      ["--sync".toList, "/dev/input/event3".toList, "--type".toList, "EV_KEY".toList,
        "--code=KEY_A".toList, "--value=1".toList]).1
    ⟨some "EV_KEY".toList, some "KEY_A".toList, 1, none, true, none⟩
    "EV_KEY".toList "KEY_A".toList "/dev/input/event3".toList 1 30
    (by decide) (by decide) (by decide) (by decide) (by decide) (by decide) (by decide)
    (by decide)).trans (by decide)⟩

theorem process_argv_wait_form (ev : Libevdev) (rest : List (List Char)) :
    process_argv ev ("WAIT".toList :: rest) =
      (match rest with
       | [] => .fault
       | arg1 :: _ => .sleep (wait_timespec arg1)) := by
  simp only [process_argv, if_true]

theorem emit_line_not_sleep (ev : Libevdev) (d t c v : List Char) (fifth : Option (List Char))
    (ts : timespec) : emit_line ev d t c v fifth ≠ .sleep ts := by
  unfold emit_line
  cases parse_type ev t with
  | none => simp
  | some ty =>
    simp only
    cases parse_code ev ty c with
    | none => simp
    | some co =>
      simp only
      cases parse_arg v with
      | none => simp
      | some va =>
        simp only
        split_ifs <;> simp

/-- C18: the test for `WAIT` comes before the test of the token count: a line
whose first token is `WAIT` never makes the emitter be called, whatever its
token count (`WAIT 1 0 1` is a wait of one second), and a line whose first token
is anything else, `wait` or `WAIT1` for instance, is never a wait. -/
theorem wait_test_precedes_count (ev : Libevdev) (buf content : List Char)
    (hline : terminated buf content) :
    ((argv_of content).head? = some "WAIT".toList →
      ∀ (p : List Char) (ty co va : Int) (sy : Bool), handle_line ev buf ≠ .emit p ty co va sy) ∧
    ((argv_of content).head? ≠ some "WAIT".toList →
      ∀ ts : timespec, handle_line ev buf ≠ .sleep ts) ∧
    handle_line ev "WAIT 1 0 1\n".toList = .sleep ⟨1, 0⟩ := by
  rw [handle_line_terminated ev buf content hline]
  refine ⟨?_, ?_, rfl⟩
  · intro hw p ty co va sy
    cases hargv : argv_of content with
    | nil => simp [hargv] at hw
    | cons d rest =>
      rw [hargv] at hw
      simp only [List.head?_cons, Option.some.injEq] at hw
      subst hw
      rw [process_argv_wait_form]
      cases rest with
      | nil => simp
      | cons a more => simp
  · intro hw ts
    cases hargv : argv_of content with
    | nil => simp [process_argv]
    | cons d rest =>
      rw [hargv] at hw
      have hd : d ≠ "WAIT".toList := by simpa using hw
      unfold process_argv
      simp only
      rw [if_neg hd]
      match rest with
      | [] => simp
      | [_] => simp
      | [_, _] => simp
      | [t, c, v] => exact emit_line_not_sleep ev d t c v none ts
      | [t, c, v, f] => exact emit_line_not_sleep ev d t c v (some f) ts
      | _ :: _ :: _ :: _ :: _ :: _ => simp

theorem wait_test_precedes_count_witness :
    terminated "WAIT1 EV_KEY KEY_A 1\n".toList "WAIT1 EV_KEY KEY_A 1".toList ∧
    (argv_of "WAIT1 EV_KEY KEY_A 1".toList).head? ≠ some "WAIT".toList ∧
    handle_line sample_names "WAIT1 EV_KEY KEY_A 1\n".toList =
      .emit "/dev/input/WAIT1".toList 1 30 1 false ∧
    handle_line sample_names "WAIT1 EV_KEY KEY_A 1\n".toList ≠ .sleep ⟨1, 0⟩ :=
  ⟨by decide, by decide, by decide,
    (wait_test_precedes_count sample_names "WAIT1 EV_KEY KEY_A 1\n".toList
      "WAIT1 EV_KEY KEY_A 1".toList (by decide)).2.1 (by decide) ⟨1, 0⟩⟩

/-- C19: a type or code token that is no known name and is a whole integer literal
`n` within the range of `long` (negative, or above 65535, as may be) is accepted
by `parse_type` and `parse_code` with exactly `n`, with no range check, and
`read_fifo` hands these numbers unchanged to the emitter. -/
theorem type_and_code_literals_unchecked (ev : Libevdev) (buf content d t c v : List Char)
    (fifth : Option (List Char)) (nt nc va : Int)
    (hline : terminated buf content)
    (htok : argv_of content = d :: t :: c :: v :: fifth.toList)
    (hwait : d ≠ "WAIT".toList)
    (htname : ev.event_type_from_name t = -1)
    (htlit : int_literal t = some nt) (htrange : LONG_MIN ≤ nt ∧ nt ≤ LONG_MAX)
    (hcname : ev.event_code_from_name nt c = -1)
    (hclit : int_literal c = some nc) (hcrange : LONG_MIN ≤ nc ∧ nc ≤ LONG_MAX)
    (hva : int_literal v = some va) (hvrange : INT_MIN ≤ va ∧ va ≤ INT_MAX) :
    parse_type ev t = some nt ∧ parse_code ev nt c = some nc ∧
    handle_line ev buf = .emit (dev_path d) nt nc va (decide (fifth = some "SYNC".toList)) := by
  have hty : parse_type ev t = some nt := by
    simp only [parse_type, htname, ne_eq, not_true_eq_false, if_false]
    exact parse_arg_of_literal t nt htlit htrange.1 htrange.2
  have hco : parse_code ev nt c = some nc := by
    simp only [parse_code, hcname, ne_eq, not_true_eq_false, if_false]
    exact parse_arg_of_literal c nc hclit hcrange.1 hcrange.2
  refine ⟨hty, hco, ?_⟩
  rw [handle_line_terminated ev buf content hline, htok, process_argv_emit_form ev d t c v fifth hwait,
    emit_line_eq ev d t c v fifth nt nc hty hco, int_literal_no_leading_space v va hva, hva]
  simp only [hvrange, and_self, if_true]

theorem type_and_code_literals_unchecked_witness :
    terminated "event3 70000 -5 1\n".toList "event3 70000 -5 1".toList ∧
    argv_of "event3 70000 -5 1".toList =
      "event3".toList :: "70000".toList :: "-5".toList :: "1".toList ::
        (none : Option (List Char)).toList ∧
    sample_names.event_type_from_name "70000".toList = -1 ∧
    int_literal "70000".toList = some 70000 ∧
    sample_names.event_code_from_name 70000 "-5".toList = -1 ∧
    int_literal "-5".toList = some (-5) ∧
    handle_line sample_names "event3 70000 -5 1\n".toList =
      .emit (dev_path "event3".toList) 70000 (-5) 1
        (decide ((none : Option (List Char)) = some "SYNC".toList)) :=
  ⟨by decide, by decide, by decide, by decide, by decide, by decide,
    (type_and_code_literals_unchecked sample_names "event3 70000 -5 1\n".toList
      "event3 70000 -5 1".toList "event3".toList "70000".toList "-5".toList "1".toList none
      70000 (-5) 1 (by decide) (by decide) (by decide) (by decide) (by decide) (by decide)
      (by decide) (by decide) (by decide) (by decide) (by decide)).2.2⟩


theorem scan_digits_stop (base : Nat) (c : Char) (cs : List Char) (acc : Nat)
    (h : valid_digit base c = false) : scan_digits base (c :: cs) acc = (acc, c :: cs) := by
  unfold valid_digit at h
  unfold scan_digits
  cases hd : digit_value c with
  | none => rfl
  | some d =>
    simp only [hd, decide_eq_false_iff_not] at h
    simp only [h, if_false]

theorem scan_float_none (body : List Char)
    (h : (match body with
          | c :: d :: _ => valid_digit 10 c || (c == '.' && valid_digit 10 d)
          | [c] => valid_digit 10 c
          | [] => false) = false) :
    scan_float 10 body = none := by
  match body, h with
  | [], _ => rfl
  | [c], h =>
    simp only at h
    unfold scan_float
    rw [scan_digits_stop 10 c [] 0 h]
    by_cases hdot : c = '.'
    · subst hdot
      rfl
    · have : (match (([c] : List Char)) with
          | '.' :: r => ((scan_digits 10 r 0).1, (scan_digits 10 r 0).2,
              r.length - (scan_digits 10 r 0).2.length)
          | _ => (0, [c], 0)) = (0, [c], 0) := by
        split
        · rename_i heq
          simp only [List.cons.injEq] at heq
          exact absurd heq.1 hdot
        · rfl
      simp only [this, List.length_singleton, Nat.sub_self, Nat.add_zero, if_true]
  | c :: d :: rest, h =>
    simp only [Bool.or_eq_false_iff, Bool.and_eq_false_imp, beq_iff_eq] at h
    obtain ⟨hc, hd⟩ := h
    unfold scan_float
    rw [scan_digits_stop 10 c (d :: rest) 0 hc]
    by_cases hdot : c = '.'
    · subst hdot
      simp only [scan_digits_stop 10 d rest 0 (hd rfl), Nat.sub_self, Nat.add_zero, if_true]
    · have : (match (c :: d :: rest : List Char) with
          | '.' :: r => ((scan_digits 10 r 0).1, (scan_digits 10 r 0).2,
              r.length - (scan_digits 10 r 0).2.length)
          | _ => (0, c :: d :: rest, 0)) = (0, c :: d :: rest, 0) := by
        split
        · rename_i heq
          simp only [List.cons.injEq] at heq
          exact absurd heq.1 hdot
        · rfl
      simp only [this, Nat.sub_self, Nat.add_zero, if_true]


theorem read_sign_snd (s : List Char) :
    (read_sign s).2 =
      (match s with
       | c :: r => if c = '-' ∨ c = '+' then r else s
       | [] => s) := by
  cases s with
  | nil => rfl
  | cons c r =>
    unfold read_sign
    by_cases hm : c = '-'
    · simp [hm]
    · by_cases hp : c = '+'
      · simp [hp]
      · simp [hm, hp]

theorem atof_of_no_number (tok : List Char) (h : starts_number tok = false) :
    atof tok = some ⟨0, 1⟩ := by
  unfold starts_number at h
  simp only [← read_sign_snd, Bool.or_eq_false_iff, decide_eq_false_iff_not] at h
  obtain ⟨⟨hstart, hinf⟩, hnan⟩ := h
  unfold atof
  generalize (read_sign (tok.dropWhile isspace)) = signed at *
  obtain ⟨neg, body⟩ := signed
  simp only at hstart hinf hnan ⊢
  have hspecial : (match body.map Char.toLower with
      | 'i' :: 'n' :: 'f' :: _ => true
      | 'n' :: 'a' :: 'n' :: _ => true
      | _ => false) = false := by
    split
    · rename_i tl heq
      exfalso
      apply hinf
      rw [List.map_take, heq]
      rfl
    · rename_i tl heq
      exfalso
      apply hnan
      rw [List.map_take, heq]
      rfl
    · rfl
  have hhex : (match body with
      | '0' :: x :: r => if x = 'x' ∨ x = 'X' then scan_float 16 r else none
      | _ => none) = none := by
    split
    · exfalso
      simp [valid_digit_zero 10 (by decide)] at hstart
    · rfl
  simp only [hspecial, hhex, scan_float_none body hstart, Bool.false_eq_true, if_false,
    Option.getD_none]
  simp [to_double, round_bin]

theorem wait_timespec_of_zero (tok : List Char) (h : atof tok = some ⟨0, 1⟩) :
    wait_timespec tok = ⟨0, 0⟩ := by
  unfold wait_timespec
  rw [h]
  rfl

/-- C17 as stated fails: for the second token `1.5abc`, a number followed by
trailing garbage, the wait requested is that of `1.5` (1 s and 500000 ns), not a
wait of zero length. -/
theorem trailing_garbage_wait_not_zero :
    terminated "WAIT 1.5abc\n".toList "WAIT 1.5abc".toList ∧
    argv_of "WAIT 1.5abc".toList = ["WAIT".toList, "1.5abc".toList] ∧
    handle_line sample_names "WAIT 1.5abc\n".toList = .sleep ⟨1, 500000⟩ ∧
    handle_line sample_names "WAIT 1.5abc\n".toList ≠ .sleep ⟨0, 0⟩ := by
  decide

/-- C17 (amended): on a line `WAIT tok` whose second token does not start, after
white space and an optional sign, with a floating-point number (`abc` for
instance), the wait requested has zero length, no error is reported and the loop
goes on to the next line; a token that starts with a number is read as that
number, whatever follows it: `1.5abc` gives the wait of `1.5`. -/
theorem malformed_wait_is_zero (ev : Libevdev) (buf content tok : List Char)
    (rest : List (List Char))
    (hline : terminated buf content)
    (htok : argv_of content = "WAIT".toList :: tok :: rest)
    (hnum : starts_number tok = false) :
    handle_line ev buf = .sleep ⟨0, 0⟩ ∧
    (∀ (s : FifoState) (h : Nat), s.fp = some h →
      loop_iteration ev s (.line buf) =
        .awaiting { s with actions := s.actions ++ [.sleep ⟨0, 0⟩] }) ∧
    starts_number "abc".toList = false ∧
    handle_line ev "WAIT 1.5abc\n".toList = handle_line ev "WAIT 1.5\n".toList := by
  have hz : handle_line ev buf = .sleep ⟨0, 0⟩ := by
    rw [handle_line_terminated ev buf content hline, htok, process_argv_wait_form]
    simp only [wait_timespec_of_zero tok (atof_of_no_number tok hnum)]
  refine ⟨hz, ?_, by decide, rfl⟩
  intro s h hfp
  rw [loop_iteration_line ev s h buf hfp (by rw [hz]; simp), hz]

theorem malformed_wait_is_zero_witness :
    terminated "WAIT abc\n".toList "WAIT abc".toList ∧
    argv_of "WAIT abc".toList = "WAIT".toList :: "abc".toList :: [] ∧
    starts_number "abc".toList = false ∧
    handle_line sample_names "WAIT abc\n".toList = .sleep ⟨0, 0⟩ :=
  ⟨by decide, by decide, by decide,
    (malformed_wait_is_zero sample_names "WAIT abc\n".toList "WAIT abc".toList "abc".toList []
      (by decide) (by decide) (by decide)).1⟩


/-! ## Lemmas on the floating-point model -/

theorem bit_length_zero (fuel : Nat) : bit_length fuel 0 = 0 := by
  cases fuel <;> simp [bit_length]

theorem bit_length_spec (fuel : Nat) :
    ∀ n, n ≤ fuel → n < 2 ^ bit_length fuel n ∧ (0 < n → 2 ^ (bit_length fuel n - 1) ≤ n) := by
  induction fuel with
  | zero =>
    intro n hn
    have : n = 0 := Nat.le_zero.mp hn
    subst this
    simp [bit_length]
  | succ fuel ih =>
    intro n hn
    by_cases h0 : n = 0
    · subst h0
      simp [bit_length]
    · have hhalf : n / 2 ≤ fuel := by omega
      obtain ⟨hup, hlo⟩ := ih (n / 2) hhalf
      simp only [bit_length, h0, if_false, Nat.add_sub_cancel]
      constructor
      · rw [pow_succ]
        omega
      · intro _
        by_cases h1 : n / 2 = 0
        · rw [h1, bit_length_zero]
          simp
          omega
        · have hpos : 0 < n / 2 := Nat.pos_of_ne_zero h1
          have hl := hlo hpos
          have hb : 0 < bit_length fuel (n / 2) := by
            by_contra hcon
            have : bit_length fuel (n / 2) = 0 := by omega
            rw [this] at hup
            simp at hup
            omega
          have : 2 ^ bit_length fuel (n / 2) = 2 * 2 ^ (bit_length fuel (n / 2) - 1) := by
            rw [← pow_succ']
            congr 1
            omega
          omega

theorem two_zpow_toNat (z : Int) (hz : 0 ≤ z) : ((2 ^ z.toNat : Nat) : ℚ) = (2 : ℚ) ^ z := by
  have : (z.toNat : Int) = z := Int.toNat_of_nonneg hz
  rw [Nat.cast_pow, ← zpow_natCast, this]
  norm_num

/-- The function `floor_log2` gives the binary exponent of `a / d`. -/
theorem floor_log2_spec (a d : Nat) (ha : 0 < a) (hd : 0 < d) :
    (2 : ℚ) ^ (floor_log2 a d) ≤ (a : ℚ) / d ∧ (a : ℚ) / d < (2 : ℚ) ^ (floor_log2 a d + 1) := by
  obtain ⟨haup, halo⟩ := bit_length_spec a a (Nat.le_refl _)
  obtain ⟨hdup, hdlo⟩ := bit_length_spec d d (Nat.le_refl _)
  have halo := halo ha
  have hdlo := hdlo hd
  have hA : 0 < bit_length a a := by
    by_contra h
    have : bit_length a a = 0 := by omega
    rw [this] at haup
    simp at haup
    omega
  have hB : 0 < bit_length d d := by
    by_contra h
    have : bit_length d d = 0 := by omega
    rw [this] at hdup
    simp at hdup
    omega
  have hdq : (0 : ℚ) < d := by exact_mod_cast hd
  have h2 : (0 : ℚ) < 2 := by norm_num
  -- the bounds in ℚ
  have qa_up : (a : ℚ) < (2 : ℚ) ^ ((bit_length a a : Int)) := by
    rw [zpow_natCast]
    exact_mod_cast haup
  have qa_lo : (2 : ℚ) ^ ((bit_length a a : Int) - 1) ≤ a := by
    have : ((bit_length a a : Int) - 1) = ((bit_length a a - 1 : Nat) : Int) := by omega
    rw [this, zpow_natCast]
    exact_mod_cast halo
  have qd_up : (d : ℚ) < (2 : ℚ) ^ ((bit_length d d : Int)) := by
    rw [zpow_natCast]
    exact_mod_cast hdup
  have qd_lo : (2 : ℚ) ^ ((bit_length d d : Int) - 1) ≤ d := by
    have : ((bit_length d d : Int) - 1) = ((bit_length d d - 1 : Nat) : Int) := by omega
    rw [this, zpow_natCast]
    exact_mod_cast hdlo
  set A : Int := (bit_length a a : Int) with hAdef
  set B : Int := (bit_length d d : Int) with hBdef
  have up : (a : ℚ) / d < (2 : ℚ) ^ (A - B + 1) := by
    rw [div_lt_iff₀ hdq]
    calc (a : ℚ) < (2 : ℚ) ^ A := qa_up
      _ = (2 : ℚ) ^ (A - B + 1) * (2 : ℚ) ^ (B - 1) := by
          rw [← zpow_add₀ (by norm_num : (2 : ℚ) ≠ 0)]
          congr 1
          ring
      _ ≤ (2 : ℚ) ^ (A - B + 1) * d :=
          mul_le_mul_of_nonneg_left qd_lo (le_of_lt (zpow_pos h2 _))
  have lo : (2 : ℚ) ^ (A - B - 1) < (a : ℚ) / d := by
    rw [lt_div_iff₀ hdq]
    calc (2 : ℚ) ^ (A - B - 1) * d < (2 : ℚ) ^ (A - B - 1) * (2 : ℚ) ^ B :=
          mul_lt_mul_of_pos_left qd_up (zpow_pos h2 _)
      _ = (2 : ℚ) ^ (A - 1) := by
          rw [← zpow_add₀ (by norm_num : (2 : ℚ) ≠ 0)]
          congr 1
          ring
      _ ≤ a := qa_lo
  unfold floor_log2
  simp only [← hAdef, ← hBdef]
  by_cases hnn : 0 ≤ A - B
  · simp only [hnn, if_true]
    have hcond : (2 ^ (A - B).toNat * d ≤ a) ↔ (2 : ℚ) ^ (A - B) ≤ (a : ℚ) / d := by
      rw [le_div_iff₀ hdq, ← two_zpow_toNat _ hnn]
      exact_mod_cast Iff.rfl
    by_cases hc : 2 ^ (A - B).toNat * d ≤ a
    · simp only [hc, if_true]
      exact ⟨hcond.mp hc, up⟩
    · simp only [hc, if_false]
      refine ⟨le_of_lt lo, ?_⟩
      have : A - B - 1 + 1 = A - B := by ring
      rw [this]
      exact not_le.mp (fun h => hc (hcond.mpr h))
  · simp only [hnn, if_false]
    have hneg : 0 ≤ -(A - B) := by omega
    have hcond : (d ≤ a * 2 ^ (-(A - B)).toNat) ↔ (2 : ℚ) ^ (A - B) ≤ (a : ℚ) / d := by
      rw [le_div_iff₀ hdq]
      have hz : (2 : ℚ) ^ (A - B) = ((2 : ℚ) ^ (-(A - B)))⁻¹ := by
        rw [zpow_neg, inv_inv]
      rw [hz, ← two_zpow_toNat _ hneg]
      have hpos : (0 : ℚ) < ((2 ^ (-(A - B)).toNat : Nat) : ℚ) := by positivity
      rw [inv_mul_le_iff₀ hpos]
      constructor
      · intro h
        have : ((d : Nat) : ℚ) ≤ ((a * 2 ^ (-(A - B)).toNat : Nat) : ℚ) := by exact_mod_cast h
        rw [Nat.cast_mul] at this
        linarith
      · intro h
        have : ((d : Nat) : ℚ) ≤ ((a * 2 ^ (-(A - B)).toNat : Nat) : ℚ) := by
          rw [Nat.cast_mul]
          linarith
        exact_mod_cast this
    by_cases hc : d ≤ a * 2 ^ (-(A - B)).toNat
    · simp only [hc, if_true]
      exact ⟨hcond.mp hc, up⟩
    · simp only [hc, if_false]
      refine ⟨le_of_lt lo, ?_⟩
      have : A - B - 1 + 1 = A - B := by ring
      rw [this]
      exact not_le.mp (fun h => hc (hcond.mpr h))


theorem two_zpow_split (q : Int) :
    ((2 ^ q.toNat : Nat) : ℚ) / ((2 ^ (-q).toNat : Nat) : ℚ) = (2 : ℚ) ^ q := by
  by_cases hq : 0 ≤ q
  · have h1 : (-q).toNat = 0 := by omega
    rw [h1, two_zpow_toNat q hq]
    simp
  · have hq2 : 0 ≤ -q := by omega
    have h1 : q.toNat = 0 := by omega
    rw [h1, two_zpow_toNat (-q) hq2, zpow_neg]
    simp

/-- The shape of a rounded positive value: a significand `m` times `2 ^ q`, where
`m` is `x / 2 ^ q` rounded to a neighbouring integer, and is that quotient itself
when the quotient is an integer. -/
theorem round_bin_pos (p : Nat) (emin emax : Int) (x r : Frac) (hn : 0 < x.num) (hd : 0 < x.den)
    (h : round_bin p emin emax x = some r) :
    ∃ m : Nat,
      r = ⟨((m * 2 ^ (max (floor_log2 x.num.natAbs x.den) emin - ((p : Int) - 1)).toNat : Nat) : Int),
        2 ^ (-(max (floor_log2 x.num.natAbs x.den) emin - ((p : Int) - 1))).toNat⟩ ∧
      (m : ℚ) ≤ x.val / (2 : ℚ) ^ (max (floor_log2 x.num.natAbs x.den) emin - ((p : Int) - 1)) + 1 ∧
      x.val / (2 : ℚ) ^ (max (floor_log2 x.num.natAbs x.den) emin - ((p : Int) - 1)) - 1 < m ∧
      (∀ k : Nat,
        x.val / (2 : ℚ) ^ (max (floor_log2 x.num.natAbs x.den) emin - ((p : Int) - 1)) = k →
          m = k) := by
  unfold round_bin at h
  have hne : x.num ≠ 0 := by omega
  have hnl : ¬ (x.num < 0) := by omega
  simp only [hne, if_false, hnl] at h
  generalize hq : max (floor_log2 x.num.natAbs x.den) emin - ((p : Int) - 1) = q at h ⊢
  set n := x.num.natAbs * 2 ^ (-q).toNat with hndef
  set d := x.den * 2 ^ q.toNat with hddef
  have hdpos : 0 < d := by positivity
  have hdq : (0 : ℚ) < d := by exact_mod_cast hdpos
  have hquot : ((n : Nat) : ℚ) / (d : Nat) = x.val / (2 : ℚ) ^ q := by
    rw [← two_zpow_split q, hndef, hddef, Frac.val]
    have ha : ((x.num.natAbs : Nat) : ℚ) = (x.num : ℚ) := by
      have : ((x.num.natAbs : Nat) : Int) = x.num := Int.natAbs_of_nonneg (le_of_lt hn)
      rw [← Int.cast_natCast, this]
    push_cast
    rw [ha]
    have h1 : ((2 : ℚ) ^ q.toNat) ≠ 0 := by positivity
    have h2 : ((2 : ℚ) ^ (-q).toNat) ≠ 0 := by positivity
    have h3 : ((x.den : Nat) : ℚ) ≠ 0 := by exact_mod_cast (Nat.pos_iff_ne_zero.mp hd)
    field_simp
  have hdm : d * (n / d) + n % d = n := Nat.div_add_mod n d
  have hrem : n % d < d := Nat.mod_lt n hdpos
  have hdmq : ((n : Nat) : ℚ) / (d : Nat) = ((n / d : Nat) : ℚ) + ((n % d : Nat) : ℚ) / (d : Nat) := by
    have : ((n : Nat) : ℚ) = (d : ℚ) * ((n / d : Nat) : ℚ) + ((n % d : Nat) : ℚ) := by
      exact_mod_cast hdm.symm
    rw [this]
    field_simp
    ring
  have hfrac_nonneg : (0 : ℚ) ≤ ((n % d : Nat) : ℚ) / (d : Nat) := by positivity
  have hfrac_lt : ((n % d : Nat) : ℚ) / (d : Nat) < 1 := by
    rw [div_lt_one hdq]
    exact_mod_cast hrem
  set m := if 2 * (n % d) < d then n / d else if d < 2 * (n % d) then n / d + 1 else n / d + n / d % 2
    with hmdef
  have hm_lo : n / d ≤ m := by
    rw [hmdef]
    split_ifs <;> omega
  have hm_hi : m ≤ n / d + 1 := by
    rw [hmdef]
    split_ifs <;> omega
  have hm_exact : n % d = 0 → m = n / d := by
    intro h0
    rw [hmdef, h0]
    simp [hdpos]
  have hr : r = ⟨((m * 2 ^ q.toNat : Nat) : Int), 2 ^ (-q).toNat⟩ := by
    split_ifs at h
    all_goals
      simp only [Option.some.injEq] at h
      rw [← h]
      simp
  refine ⟨m, hr, ?_, ?_, ?_⟩
  · rw [← hquot, hdmq]
    have : (m : ℚ) ≤ ((n / d : Nat) : ℚ) + 1 := by exact_mod_cast hm_hi
    linarith
  · rw [← hquot, hdmq]
    have : ((n / d : Nat) : ℚ) ≤ (m : ℚ) := by exact_mod_cast hm_lo
    linarith
  · intro k hk
    rw [← hquot, div_eq_iff (ne_of_gt hdq)] at hk
    have hk2 : n = k * d := by exact_mod_cast hk
    have h0 : n % d = 0 := by
      rw [hk2]
      exact Nat.mul_mod_left k d
    rw [hm_exact h0, hk2]
    exact Nat.mul_div_cancel k hdpos


theorem val_of_shape (m : Nat) (q : Int) :
    Frac.val ⟨((m * 2 ^ q.toNat : Nat) : Int), 2 ^ (-q).toNat⟩ = (m : ℚ) * (2 : ℚ) ^ q := by
  simp only [Frac.val]
  rw [← two_zpow_split q]
  push_cast
  ring

/-- A non-negative value rounded to `float`: a significand of at most 24 bits
times a power of two, at most twice the value plus one. -/
theorem to_float_shape (x r : Frac) (hn : 0 ≤ x.num) (hd : 0 < x.den)
    (h : to_float x = some r) :
    ∃ (m : Nat) (q : Int), m ≤ 2 ^ 24 ∧
      r = ⟨((m * 2 ^ q.toNat : Nat) : Int), 2 ^ (-q).toNat⟩ ∧
      r.val ≤ 2 * x.val + 1 := by
  have hdq : (0 : ℚ) < x.den := by exact_mod_cast hd
  by_cases h0 : x.num = 0
  · refine ⟨0, 0, by norm_num, ?_, ?_⟩
    · simp only [to_float, round_bin, h0, if_true, Option.some.injEq] at h
      rw [← h]
      rfl
    · simp only [to_float, round_bin, h0, if_true, Option.some.injEq] at h
      rw [← h]
      simp [Frac.val, h0]
  · have hpos : 0 < x.num := lt_of_le_of_ne hn (Ne.symm h0)
    obtain ⟨m, hr, hm_hi, -, -⟩ := round_bin_pos 24 (-126) 127 x r hpos hd h
    have hapos : 0 < x.num.natAbs := Int.natAbs_pos.mpr h0
    obtain ⟨hfl_lo, hfl_hi⟩ := floor_log2_spec x.num.natAbs x.den hapos hd
    have hval : ((x.num.natAbs : Nat) : ℚ) / (x.den : ℚ) = x.val := by
      have : ((x.num.natAbs : Nat) : Int) = x.num := Int.natAbs_of_nonneg hn
      rw [Frac.val, ← Int.cast_natCast, this]
    rw [hval] at hfl_lo hfl_hi
    have hxpos : 0 < x.val := by
      rw [Frac.val]
      have : (0 : ℚ) < x.num := by exact_mod_cast hpos
      positivity
    generalize hfl : floor_log2 x.num.natAbs x.den = fl at hr hm_hi hfl_lo hfl_hi
    simp only [Nat.cast_ofNat] at hr hm_hi
    set q : Int := max fl (-126) - (24 - 1) with hq
    have h2 : (0 : ℚ) < 2 := by norm_num
    have hqpos : (0 : ℚ) < (2 : ℚ) ^ q := zpow_pos h2 q
    have hquot : x.val / (2 : ℚ) ^ q < (2 : ℚ) ^ (24 : Int) := by
      rw [div_lt_iff₀ hqpos, ← zpow_add₀ (by norm_num : (2 : ℚ) ≠ 0)]
      have hle : fl + 1 ≤ 24 + q := by
        rw [hq]
        have := le_max_left fl (-126)
        omega
      exact lt_of_lt_of_le hfl_hi (zpow_le_zpow_right₀ (by norm_num) hle)
    have hm24 : m ≤ 2 ^ 24 := by
      have h1 : (m : ℚ) < (2 : ℚ) ^ (24 : Int) + 1 := by linarith
      have h3 : ((2 : ℚ) ^ (24 : Int)) + 1 = ((16777217 : Nat) : ℚ) := by norm_num
      rw [h3] at h1
      have h5 : m < 16777217 := by exact_mod_cast h1
      omega
    have hulp : (2 : ℚ) ^ q ≤ x.val + 1 := by
      rcases le_total fl (-126) with hcase | hcase
      · have hqv : q = -149 := by
          rw [hq, max_eq_right hcase]
          norm_num
        rw [hqv]
        have : (2 : ℚ) ^ (-149 : Int) ≤ 1 := by
          apply zpow_le_one_of_nonpos₀ (by norm_num) (by norm_num)
        linarith
      · have hqv : q = fl - 23 := by
          rw [hq, max_eq_left hcase]
          norm_num
        rw [hqv]
        have : (2 : ℚ) ^ (fl - 23) ≤ (2 : ℚ) ^ fl :=
          zpow_le_zpow_right₀ (by norm_num) (by omega)
        linarith
    refine ⟨m, q, hm24, hr, ?_⟩
    rw [hr, val_of_shape]
    have hmq : (m : ℚ) * (2 : ℚ) ^ q ≤ x.val + (2 : ℚ) ^ q := by
      have := mul_le_mul_of_nonneg_right hm_hi (le_of_lt hqpos)
      rw [add_mul, div_mul_cancel₀ _ (ne_of_gt hqpos), one_mul] at this
      exact this
    linarith


/-- The whole part of a `float` below `2 ^ 31` is a multiple of the unit in the
last place of its own binade: it has at most 24 significant bits. -/
theorem trunc_of_float_divisible (m t Ln S : Nat) (hm : m ≤ 2 ^ 24) (hS : S = m * 2 ^ t)
    (hL : 24 ≤ Ln) (hlo : 2 ^ Ln ≤ S) : ∃ k, S = k * 2 ^ (Ln - 23) := by
  by_cases hjt : Ln - 23 ≤ t
  · refine ⟨m * 2 ^ (t - (Ln - 23)), ?_⟩
    rw [hS, Nat.mul_assoc, ← pow_add]
    congr 2
    omega
  · have ht : t + 24 ≤ Ln := by omega
    have h1 : m * 2 ^ t ≤ 2 ^ 24 * 2 ^ t := Nat.mul_le_mul_right _ hm
    have h2 : 2 ^ 24 * 2 ^ t = 2 ^ (24 + t) := by rw [← pow_add]
    have h3 : 2 ^ (24 + t) ≤ 2 ^ Ln := Nat.pow_le_pow_right (by norm_num) (by omega)
    have hSeq : S = 2 ^ Ln := by omega
    refine ⟨2 ^ 23, ?_⟩
    rw [hSeq, ← pow_add]
    congr 1
    omega

theorem to_float_trunc_exact (m : Nat) (q : Int) (hm : m ≤ 2 ^ 24) (f : Frac) (S : Nat)
    (hS : S = (m * 2 ^ q.toNat) / 2 ^ (-q).toNat) (hmax : S < 2 ^ 31)
    (h : to_float ⟨(S : Int), 1⟩ = some f) :
    f.val = S ∧ 0 < f.den := by
  by_cases h0 : S = 0
  · subst h0
    have hf : f = ⟨0, 1⟩ := by
      simp only [to_float, round_bin, Nat.cast_zero, if_true, Option.some.injEq] at h
      exact h.symm
    rw [hf]
    simp [Frac.val]
  · have hSpos : 0 < S := Nat.pos_of_ne_zero h0
    have hnum : (0 : Int) < (⟨(S : Int), 1⟩ : Frac).num := by
      show (0 : Int) < (S : Int)
      exact_mod_cast hSpos
    obtain ⟨m2, hr, -, -, hexact⟩ :=
      round_bin_pos 24 (-126) 127 ⟨(S : Int), 1⟩ f hnum (by norm_num) h
    have hnat : (⟨(S : Int), 1⟩ : Frac).num.natAbs = S := by
      show ((S : Int)).natAbs = S
      exact Int.natAbs_ofNat S
    simp only [hnat, Nat.cast_ofNat] at hr hexact
    obtain ⟨hfl_lo, hfl_hi⟩ := floor_log2_spec S 1 hSpos (by norm_num)
    simp only [Nat.cast_one, div_one] at hfl_lo hfl_hi
    generalize hfl : floor_log2 S 1 = L at hr hexact hfl_lo hfl_hi
    have hSq1 : (1 : ℚ) ≤ S := by exact_mod_cast hSpos
    have hLnn : 0 ≤ L := by
      by_contra hneg
      have hle : L + 1 ≤ 0 := by omega
      have : (2 : ℚ) ^ (L + 1) ≤ 1 := zpow_le_one_of_nonpos₀ (by norm_num) hle
      linarith
    obtain ⟨Ln, hLn⟩ := Int.eq_ofNat_of_zero_le hLnn
    subst hLn
    have hlo_nat : 2 ^ Ln ≤ S := by
      rw [zpow_natCast] at hfl_lo
      exact_mod_cast hfl_lo
    have hLn30 : Ln < 31 := by
      by_contra hge
      have : 2 ^ 31 ≤ 2 ^ Ln := Nat.pow_le_pow_right (by norm_num) (by omega)
      omega
    have hmaxeq : max (Ln : Int) (-126) = (Ln : Int) := max_eq_left (by omega)
    rw [hmaxeq] at hr hexact
    have hval : (⟨(S : Int), 1⟩ : Frac).val = (S : ℚ) := by simp [Frac.val]
    rw [hval] at hexact
    have hfden : 0 < f.den := by
      rw [hr]
      show 0 < 2 ^ _
      positivity
    -- the quotient by the unit in the last place is a natural number
    have hk : ∃ k : Nat, (S : ℚ) / (2 : ℚ) ^ ((Ln : Int) - (24 - 1)) = k := by
      by_cases hL : Ln ≤ 23
      · refine ⟨S * 2 ^ (23 - Ln), ?_⟩
        have : ((Ln : Int) - (24 - 1)) = -((23 - Ln : Nat) : Int) := by omega
        rw [this, zpow_neg, zpow_natCast]
        push_cast
        field_simp
      · have hL24 : 24 ≤ Ln := by omega
        have hQ : 0 ≤ q := by
          by_contra hqneg
          have hq0 : q.toNat = 0 := by omega
          have hq1 : 1 ≤ (-q).toNat := by omega
          rw [hq0, pow_zero, Nat.mul_one] at hS
          have h2 : 2 ≤ 2 ^ (-q).toNat := by
            calc 2 = 2 ^ 1 := by norm_num
              _ ≤ 2 ^ (-q).toNat := Nat.pow_le_pow_right (by norm_num) hq1
          have h3 : S ≤ m / 2 := by
            rw [hS]
            exact Nat.div_le_div_left h2 (by norm_num)
          have h4 : 2 ^ 24 ≤ 2 ^ Ln := Nat.pow_le_pow_right (by norm_num) hL24
          omega
        have hq1 : (-q).toNat = 0 := by omega
        rw [hq1, pow_zero, Nat.div_one] at hS
        obtain ⟨k, hk⟩ := trunc_of_float_divisible m q.toNat Ln S hm hS hL24 hlo_nat
        refine ⟨k, ?_⟩
        have : ((Ln : Int) - (24 - 1)) = ((Ln - 23 : Nat) : Int) := by omega
        rw [this, zpow_natCast, hk]
        push_cast
        field_simp
    obtain ⟨k, hk⟩ := hk
    have hm2 := hexact k hk
    refine ⟨?_, hfden⟩
    rw [hr, val_of_shape, hm2]
    have hpos : (0 : ℚ) < (2 : ℚ) ^ ((Ln : Int) - (24 - 1)) := zpow_pos (by norm_num) _
    rw [← hk, div_mul_cancel₀ _ (ne_of_gt hpos)]


theorem nat_div_lt_succ (a b : Nat) (hb : 0 < b) : (a : ℚ) / b < ((a / b : Nat) : ℚ) + 1 := by
  have hbq : (0 : ℚ) < b := by exact_mod_cast hb
  rw [div_lt_iff₀ hbq]
  have h1 : b * (a / b) + a % b = a := Nat.div_add_mod a b
  have h2 : a % b < b := Nat.mod_lt a hb
  have h3 : a < (a / b + 1) * b := by
    rw [Nat.add_mul, Nat.one_mul, Nat.mul_comm]
    omega
  have h4 : ((a : Nat) : ℚ) < (((a / b + 1) * b : Nat) : ℚ) := by exact_mod_cast h3
  push_cast at h4
  exact h4

theorem shape_trunc (m : Nat) (q : Int) :
    c_trunc ⟨((m * 2 ^ q.toNat : Nat) : Int), 2 ^ (-q).toNat⟩ =
      (((m * 2 ^ q.toNat) / 2 ^ (-q).toNat : Nat) : Int) := rfl

theorem shape_trunc_bounds (m : Nat) (q : Int) :
    (((m * 2 ^ q.toNat) / 2 ^ (-q).toNat : Nat) : ℚ) ≤
        Frac.val ⟨((m * 2 ^ q.toNat : Nat) : Int), 2 ^ (-q).toNat⟩ ∧
      Frac.val ⟨((m * 2 ^ q.toNat : Nat) : Int), 2 ^ (-q).toNat⟩ <
        (((m * 2 ^ q.toNat) / 2 ^ (-q).toNat : Nat) : ℚ) + 1 := by
  simp only [Frac.val, Int.cast_natCast]
  exact ⟨Nat.cast_div_le, nat_div_lt_succ _ _ (by positivity)⟩

/-- A non-negative value below `2 ^ 126` stays finite when rounded to `float`. -/
theorem to_float_finite (x : Frac) (hn : 0 ≤ x.num) (hd : 0 < x.den)
    (hsmall : x.val < (2 : ℚ) ^ (126 : Int)) : ∃ r, to_float x = some r := by
  by_cases h0 : x.num = 0
  · exact ⟨⟨0, 1⟩, by simp [to_float, round_bin, h0]⟩
  · have hapos : 0 < x.num.natAbs := Int.natAbs_pos.mpr h0
    obtain ⟨hfl_lo, -⟩ := floor_log2_spec x.num.natAbs x.den hapos hd
    have hval : ((x.num.natAbs : Nat) : ℚ) / (x.den : ℚ) = x.val := by
      have : ((x.num.natAbs : Nat) : Int) = x.num := Int.natAbs_of_nonneg hn
      rw [Frac.val, ← Int.cast_natCast, this]
    rw [hval] at hfl_lo
    have hfl : floor_log2 x.num.natAbs x.den < 126 := by
      by_contra hge
      have hle : (126 : Int) ≤ floor_log2 x.num.natAbs x.den := by omega
      have : (2 : ℚ) ^ (126 : Int) ≤ (2 : ℚ) ^ floor_log2 x.num.natAbs x.den :=
        zpow_le_zpow_right₀ (by norm_num) hle
      linarith
    unfold to_float round_bin
    simp only [h0, if_false]
    have hmax := max_le (le_of_lt hfl) (by norm_num : (-126 : Int) ≤ 126)
    split_ifs
    all_goals first
      | exact ⟨_, rfl⟩
      | (exfalso
         omega)


theorem small_lt_two_pow (v : ℚ) (h : v < 4294967296) : v < (2 : ℚ) ^ (126 : Int) := by
  have : (4294967296 : ℚ) ≤ (2 : ℚ) ^ (126 : Int) := by norm_num
  linarith

/-- The time computed for a non-negative argument of `WAIT` whose whole part fits
`int` has non-negative fields and less than a second of nanoseconds. -/
theorem wait_timespec_nonneg (arg : List Char) (x w : Frac)
    (hx : atof arg = some x) (hxn : 0 ≤ x.num) (hxd : 0 < x.den)
    (hw : to_float x = some w) (hr : c_trunc w ≤ INT_MAX) :
    0 ≤ (wait_timespec arg).tv_sec ∧ 0 ≤ (wait_timespec arg).tv_nsec ∧
      (wait_timespec arg).tv_nsec < 1000000000 := by
  obtain ⟨m, q, hm, hwshape, -⟩ := to_float_shape x w hxn hxd hw
  subst hwshape
  rw [shape_trunc] at hr
  unfold wait_timespec
  simp only [hx, hw, Option.some_bind, float_to_int, shape_trunc]
  obtain ⟨hSlo, hShi⟩ := shape_trunc_bounds m q
  generalize hSdef : (m * 2 ^ q.toNat) / 2 ^ (-q).toNat = S at hr hSlo hShi ⊢
  have hS := hSdef.symm
  have hS31 : S < 2 ^ 31 := by
    simp only [INT_MAX] at hr
    omega
  have hguard : ¬ ((S : Int) < INT_MIN ∨ INT_MAX < (S : Int)) := by
    simp only [INT_MIN, INT_MAX]
    omega
  simp only [hguard, if_false]
  have hSq : ((S : Nat) : ℚ) < 4294967296 := by
    have : S < 4294967296 := by omega
    exact_mod_cast this
  obtain ⟨fs, hfs⟩ := to_float_finite ⟨(S : Int), 1⟩ (Int.natCast_nonneg _) (by norm_num)
    (small_lt_two_pow _ (by simpa [Frac.val] using hSq))
  simp only [hfs, Option.some_bind]
  obtain ⟨hfsval, hfsden⟩ := to_float_trunc_exact m q hm fs S hS hS31 hfs
  set D : Frac := ⟨((m * 2 ^ q.toNat : Nat) : Int) * (fs.den : Int) -
    fs.num * ((2 ^ (-q).toNat : Nat) : Int), 2 ^ (-q).toNat * fs.den⟩ with hD
  have hfdq : (0 : ℚ) < (fs.den : ℚ) := by exact_mod_cast hfsden
  have hDden : 0 < D.den := Nat.mul_pos (by positivity) hfsden
  have hDval : D.val =
      Frac.val ⟨((m * 2 ^ q.toNat : Nat) : Int), 2 ^ (-q).toNat⟩ - fs.val := by
    simp only [hD, Frac.val]
    push_cast
    field_simp
    ring
  have hDlo : 0 ≤ D.val := by rw [hDval, hfsval]; linarith
  have hDhi : D.val < 1 := by rw [hDval, hfsval]; linarith
  have hDnum : 0 ≤ D.num := by
    have hdq : (0 : ℚ) < (D.den : ℚ) := by exact_mod_cast hDden
    have : (0 : ℚ) ≤ (D.num : ℚ) := by
      have h1 : (D.num : ℚ) = D.val * D.den := by
        rw [Frac.val, div_mul_cancel₀ _ (ne_of_gt hdq)]
      rw [h1]
      positivity
    exact_mod_cast this
  obtain ⟨df, hdf⟩ := to_float_finite D hDnum hDden (small_lt_two_pow _ (by linarith))
  simp only [hdf, Option.some_bind]
  obtain ⟨m2, q2, -, hdfshape, hdfval⟩ := to_float_shape D df hDnum hDden hdf
  have hdfnum : 0 ≤ df.num := by rw [hdfshape]; exact Int.natCast_nonneg _
  have hdfden : 0 < df.den := by rw [hdfshape]; show 0 < 2 ^ _; positivity
  set P : Frac := ⟨df.num * 1000000, df.den⟩ with hP
  have hPnum : 0 ≤ P.num := by rw [hP]; show 0 ≤ df.num * 1000000; positivity
  have hPval : P.val = df.val * 1000000 := by
    simp only [hP, Frac.val]
    push_cast
    ring
  obtain ⟨pr, hpr⟩ := to_float_finite P hPnum hdfden
    (small_lt_two_pow _ (by rw [hPval]; linarith))
  simp only [hpr]
  obtain ⟨m3, q3, -, hprshape, hprval⟩ := to_float_shape P pr hPnum hdfden hpr
  subst hprshape
  obtain ⟨hNlo, -⟩ := shape_trunc_bounds m3 q3
  simp only [float_to_long, shape_trunc]
  generalize (m3 * 2 ^ q3.toNat) / 2 ^ (-q3).toNat = N at hNlo ⊢
  have hbound : ((N : Nat) : ℚ) < 1000000000 := by
    rw [hPval] at hprval
    linarith
  have hnat : N < 1000000000 := by exact_mod_cast hbound
  have hlong : ¬ ((N : Int) < LONG_MIN ∨ LONG_MAX < (N : Int)) := by
    simp only [LONG_MIN, LONG_MAX]
    omega
  simp only [hlong, if_false]
  refine ⟨Int.natCast_nonneg _, Int.natCast_nonneg _, ?_⟩
  exact_mod_cast hnat

theorem round_bin_den_pos (p : Nat) (emin emax : Int) (x r : Frac)
    (h : round_bin p emin emax x = some r) : 0 < r.den := by
  unfold round_bin at h
  by_cases h0 : x.num = 0
  · simp only [h0, if_true, Option.some.injEq] at h
    rw [← h]
    exact Nat.one_pos
  · simp only [h0, if_false, Option.ite_none_left_eq_some, Option.some.injEq] at h
    rw [← h.2]
    show 0 < 2 ^ _
    positivity

/-- A negative value whose rounding is not negative rounds to zero. -/
theorem round_bin_neg_zero (p : Nat) (emin emax : Int) (x r : Frac) (hx : x.num < 0)
    (h : round_bin p emin emax x = some r) (hr : 0 ≤ r.num) : r.num = 0 := by
  unfold round_bin at h
  simp only [ne_of_lt hx, hx, if_true, if_false, Option.ite_none_left_eq_some,
    Option.some.injEq] at h
  have hz : ∀ M : Nat, 0 ≤ -1 * (M : Int) → -1 * (M : Int) = 0 := by
    intro M hM
    omega
  rw [← h.2] at hr ⊢
  exact hz _ hr

theorem atof_den_pos (tok : List Char) (x : Frac) (hx : atof tok = some x) : 0 < x.den := by
  unfold atof at hx
  simp only [Option.ite_none_left_eq_some] at hx
  exact round_bin_den_pos 53 (-1022) 1023 _ x hx.2

/-- The time computed for an argument of `WAIT` that reads as zero. -/
theorem wait_timespec_zero_value (arg : List Char) (w : Frac)
    (hw : (atof arg).bind to_float = some w) (h0 : w.num = 0) :
    wait_timespec arg = ⟨0, 0⟩ := by
  obtain ⟨n, d⟩ := w
  simp only at h0
  subst h0
  unfold wait_timespec
  simp only [hw]
  simp [float_to_int, float_to_long, c_trunc, to_float, round_bin, INT_MIN, INT_MAX,
    LONG_MIN, LONG_MAX]

/-- The time computed for an argument of `WAIT` that reads, as a `float`, as a
finite non-negative number with a whole part of at most `INT_MAX`: the fields are
not negative and the nanoseconds are less than a second. -/
theorem wait_timespec_valid (arg : List Char) (w : Frac)
    (hw : (atof arg).bind to_float = some w) (hpos : 0 ≤ w.num)
    (hr : c_trunc w ≤ INT_MAX) :
    0 ≤ (wait_timespec arg).tv_sec ∧ 0 ≤ (wait_timespec arg).tv_nsec ∧
      (wait_timespec arg).tv_nsec < 1000000000 := by
  cases hx : atof arg with
  | none => simp [hx] at hw
  | some x =>
    have hwx : to_float x = some w := by simpa [hx] using hw
    by_cases hxn : 0 ≤ x.num
    · exact wait_timespec_nonneg arg x w hx hxn (atof_den_pos arg x hx) hwx hr
    · have h0 : w.num = 0 :=
        round_bin_neg_zero 24 (-126) 127 x w (not_le.mp hxn) hwx hpos
      rw [wait_timespec_zero_value arg w hw h0]
      decide

/-- C16 as stated fails: for the line `WAIT -1.5` the time handed to `nanosleep`
has `tv_sec = -1` and `tv_nsec = -500000`; for `WAIT 3000000000`, a number whose
whole part exceeds `INT_MAX`, and for `WAIT inf` it has `tv_sec = INT_MIN`. -/
theorem wait_duration_not_always_valid :
    terminated "WAIT -1.5\n".toList "WAIT -1.5".toList ∧
    argv_of "WAIT -1.5".toList = ["WAIT".toList, "-1.5".toList] ∧
    handle_line sample_names "WAIT -1.5\n".toList = .sleep ⟨-1, -500000⟩ ∧
    terminated "WAIT 3000000000\n".toList "WAIT 3000000000".toList ∧
    argv_of "WAIT 3000000000".toList = ["WAIT".toList, "3000000000".toList] ∧
    handle_line sample_names "WAIT 3000000000\n".toList =
      .sleep ⟨-2147483648, 5147483407646720⟩ ∧
    handle_line sample_names "WAIT inf\n".toList =
      .sleep ⟨-2147483648, -9223372036854775808⟩ := by
  decide

/-- C16 (amended): on a line whose first token is `WAIT` and whose second token
reads (by `atof`, converted to `float`) as a finite number `w` that is not
negative and whose whole part is at most `INT_MAX`, `nanosleep` is requested with
a valid non-negative duration: `tv_sec ≥ 0` and `0 ≤ tv_nsec < 10^9`.  Nothing is
checked for the other tokens: a negative number, a number with a whole part above
`INT_MAX`, an infinity or a NaN. -/
theorem in_range_wait_is_valid (ev : Libevdev) (buf content tok : List Char)
    (rest : List (List Char)) (w : Frac)
    (hline : terminated buf content)
    (htok : argv_of content = "WAIT".toList :: tok :: rest)
    (hw : (atof tok).bind to_float = some w)
    (hpos : 0 ≤ w.num)
    (hrange : c_trunc w ≤ INT_MAX) :
    ∃ ts : timespec, handle_line ev buf = .sleep ts ∧
      0 ≤ ts.tv_sec ∧ 0 ≤ ts.tv_nsec ∧ ts.tv_nsec < 1000000000 := by
  refine ⟨wait_timespec tok, ?_, wait_timespec_valid tok w hw hpos hrange⟩
  rw [handle_line_terminated ev buf content hline, htok, process_argv_wait_form]

theorem in_range_wait_is_valid_witness :
    terminated "WAIT 0.1\n".toList "WAIT 0.1".toList ∧
    argv_of "WAIT 0.1".toList = "WAIT".toList :: "0.1".toList :: [] ∧
    (atof "0.1".toList).bind to_float = some ⟨13421773, 134217728⟩ ∧
    (0 : Int) ≤ (⟨13421773, 134217728⟩ : Frac).num ∧
    c_trunc ⟨13421773, 134217728⟩ ≤ INT_MAX ∧
    handle_line sample_names "WAIT 0.1\n".toList = .sleep ⟨0, 100000⟩ ∧
    (∃ ts : timespec, handle_line sample_names "WAIT 0.1\n".toList = .sleep ts ∧
      0 ≤ ts.tv_sec ∧ 0 ≤ ts.tv_nsec ∧ ts.tv_nsec < 1000000000) :=
  ⟨by decide, by decide, by decide, by decide, by decide, by decide,
    in_range_wait_is_valid sample_names "WAIT 0.1\n".toList "WAIT 0.1".toList "0.1".toList []
      ⟨13421773, 134217728⟩ (by decide) (by decide) (by decide) (by decide) (by decide)⟩

end Evemu
